import Mathlib

/-!
Verification of the deepagents storage-backend layer: a shallow embedding of
the Python sources under `deepagents/backends` and
`deepagents/middleware/filesystem.py`, together with theorems settling the
frozen specification claims.

Conventions of the embedding:
* Python strings are Lean `String`s; character-level algorithms work on
  `List Char` (Python indexes/slices strings by code point, as `List Char`
  does).
* Python dicts keyed by path are association lists `List (String × _)`;
  iteration order is insertion order, as in Python.
* Timestamps produced by `datetime.now()` are threaded as explicit string
  parameters (the code only ever stores and compares them).
* Fallible Python functions that return an error string instead of raising
  are modelled with `Except String _`.
-/

namespace DeepAgents

/-! ## String helpers -/

/-- Python `s.split(sep)` for a one-character separator, over `List Char`.
Always returns a non-empty list; splitting the empty string yields `[[]]`. -/
def splitCh (sep : Char) : List Char → List (List Char)
  | [] => [[]]
  | c :: t =>
    match splitCh sep t with
    | [] => [[c]]
    | h :: r => if c = sep then [] :: h :: r else (c :: h) :: r

/-- Python `sep.join(parts)` for a one-character separator, over `List Char`. -/
def joinCh (sep : Char) : List (List Char) → List Char
  | [] => []
  | [l] => l
  | l :: ls => l ++ sep :: joinCh sep ls

/-- Python `sub in s` (substring containment). -/
def containsSub (s sub : List Char) : Bool :=
  sub.isPrefixOf s ||
    match s with
    | [] => false
    | _ :: t => containsSub t sub

/-- Worker for `countOccs`, structurally recursive on a fuel argument so the
kernel can evaluate it; every step consumes at least one character of `s`, so
fuel `s.length` never runs out (the fuel-0 case is unreachable from the
wrapper). -/
def countOccsF : Nat → List Char → List Char → Nat
  | _, s, [] => s.length + 1
  | 0, _, _ => 0
  | fuel + 1, s, pat =>
    match s with
    | [] => 0
    | c :: t =>
      if pat.isPrefixOf (c :: t) then 1 + countOccsF fuel ((c :: t).drop pat.length) pat
      else countOccsF fuel t pat

/-- Python `s.count(sub)`: number of non-overlapping occurrences, scanning
left to right; counting the empty string yields `len(s) + 1`. -/
def countOccs (s pat : List Char) : Nat := countOccsF s.length s pat

/-- Worker for `replaceOcc`, fuelled like `countOccsF`. -/
def replaceOccF : Nat → List Char → List Char → List Char → List Char
  | _, s, [], new => new ++ s.flatMap (fun c => c :: new)
  | 0, s, _, _ => s
  | fuel + 1, s, old, new =>
    match s with
    | [] => []
    | c :: t =>
      if old.isPrefixOf (c :: t) then new ++ replaceOccF fuel ((c :: t).drop old.length) old new
      else c :: replaceOccF fuel t old new

/-- Python `s.replace(old, new)`: replace every non-overlapping occurrence,
left to right; an empty `old` interleaves `new` around every character. -/
def replaceOcc (s old new : List Char) : List Char := replaceOccF s.length s old new

/-- String-level wrapper for `countOccs`. -/
def strCount (s pat : String) : Nat := countOccs s.toList pat.toList

/-- String-level wrapper for `replaceOcc`. -/
def strReplace (s old new : String) : String :=
  String.mk (replaceOcc s.toList old.toList new.toList)

/-- Python `s < t` on strings: lexicographic comparison by code point. -/
def strLtB : List Char → List Char → Bool
  | [], [] => false
  | [], _ :: _ => true
  | _ :: _, [] => false
  | a :: s, b :: t => if a < b then true else if b < a then false else strLtB s t

/-! ## File data model (`backends/utils.py`)

`FileData` keeps the stored line list and the modification timestamp; the
creation timestamp is carried by the code but never read by any operation
modelled here, so it is omitted.  `datetime.now()` is threaded as an explicit
`now : String` argument. -/

structure FileData where
  content : List (List Char)
  modifiedAt : String
  deriving Repr, DecidableEq

/-- `file_data_to_string`: join the stored lines with newlines. -/
def file_data_to_string (fd : FileData) : String :=
  String.mk (joinCh '\n' fd.content)

/-- `create_file_data`: store `content.split("\n")` with a fresh timestamp. -/
def create_file_data (content : String) (now : String) : FileData :=
  ⟨splitCh '\n' content.toList, now⟩

/-- `update_file_data`: replace the lines, refresh the timestamp. -/
def update_file_data (fd : FileData) (content : String) (now : String) : FileData :=
  ⟨splitCh '\n' content.toList, now⟩

/-- A Python dict from path to `FileData`, in insertion order. -/
abbrev FileMap := List (String × FileData)

/-- Dict lookup `files.get(path)`. -/
def getFile : FileMap → String → Option FileData
  | [], _ => none
  | (k, v) :: t, p => if k = p then some v else getFile t p

/-- Dict assignment `files[path] = fd` (overwrite in place or append). -/
def setFile : FileMap → String → FileData → FileMap
  | [], p, fd => [(p, fd)]
  | (k, v) :: t, p, fd => if k = p then (k, fd) :: t else (k, v) :: setFile t p fd

/-- `WriteResult` (`backends/protocol.py`). -/
structure WriteResult where
  path : Option String := none
  error : Option String := none
  filesUpdate : Option FileMap := none
  deriving Repr, DecidableEq

/-- `EditResult` (`backends/protocol.py`). -/
structure EditResult where
  path : Option String := none
  error : Option String := none
  filesUpdate : Option FileMap := none
  occurrences : Option Nat := none
  deriving Repr, DecidableEq

/-- Applying a result's `files_update` to the shared state, as the
middleware file-data reducer does for updates without deletion markers
(write/edit never emit deletion markers). -/
def applyFilesUpdate (files : FileMap) (u : Option FileMap) : FileMap :=
  match u with
  | none => files
  | some us => us.foldl (fun acc kv => setFile acc kv.1 kv.2) files

/-- `perform_string_replacement` (`backends/utils.py`): validates the
occurrence count, then replaces.  Returns the new content and the number of
occurrences, or an error message. -/
def perform_string_replacement (content old_string new_string : String)
    (replace_all : Bool) : Except String (String × Nat) :=
  let occurrences := strCount content old_string
  if occurrences = 0 then
    Except.error ("Error: String not found in file: " ++ old_string)
  else if occurrences > 1 && !replace_all then
    Except.error ("Error: String " ++ old_string ++ " appears " ++ toString occurrences ++
      " times in file. Use replace_all=True to replace all instances, or provide a more specific string with surrounding context.")
  else
    Except.ok (strReplace content old_string new_string, occurrences)

/-! ## StateBackend (`backends/state.py`) and StoreBackend (`backends/store.py`) -/

/-- `StateBackend.write`: create-only; on success returns a `files_update`
for the LangGraph state, on conflict returns an error and no update. -/
def stateWrite (files : FileMap) (file_path content now : String) : WriteResult :=
  if (getFile files file_path).isSome then
    { error := some ("Cannot write to " ++ file_path ++
        " because it already exists. Read and then make an edit, or write to a new path.") }
  else
    { path := some file_path,
      filesUpdate := some [(file_path, create_file_data content now)] }

/-- `StateBackend.edit`: read, replace via `perform_string_replacement`,
store the result as a `files_update`. -/
def stateEdit (files : FileMap) (file_path old_string new_string : String)
    (replace_all : Bool) (now : String) : EditResult :=
  match getFile files file_path with
  | none => { error := some ("Error: File " ++ file_path ++ " not found") }
  | some fd =>
    match perform_string_replacement (file_data_to_string fd) old_string new_string replace_all with
    | Except.error e => { error := some e }
    | Except.ok (new_content, occurrences) =>
      { path := some file_path,
        filesUpdate := some [(file_path, update_file_data fd new_content now)],
        occurrences := some occurrences }

/-- `StoreBackend.write`: create-only against the namespaced store; on
success `store.put` updates the store directly and `files_update` is `None`. -/
def storeWrite (store : FileMap) (file_path content now : String) :
    WriteResult × FileMap :=
  if (getFile store file_path).isSome then
    ({ error := some ("Cannot write to " ++ file_path ++
        " because it already exists. Read and then make an edit, or write to a new path.") }, store)
  else
    ({ path := some file_path, filesUpdate := none },
      setFile store file_path (create_file_data content now))

/-! ## CompositeBackend (`backends/composite.py`)

Backends are identified by `Nat` ids; the individual backend operations the
router delegates to are passed in as functions, since the router treats them
as opaque (`BackendProtocol`).  A route table maps prefix strings to backend
ids, in dict insertion order. -/

/-- Python `s.startswith(pre)`, computed on the character lists. -/
def pyStartswith (s pre : String) : Bool := pre.toList.isPrefixOf s.toList

/-- Python `s[n:]` (slice from character index `n`). -/
def pyDrop (s : String) (n : Nat) : String := String.mk (s.toList.drop n)

/-- Python `s[:-n]` (drop the last `n` characters). -/
def pyDropRight (s : String) (n : Nat) : String :=
  String.mk (s.toList.take (s.toList.length - n))

abbrev RouteTable := List (String × Nat)

/-- Insert into a list sorted by prefix length descending, after all entries
of greater or equal length (this is where Python `sorted(..., reverse=True)`
stably places it). -/
def insertRouteDesc (x : String × Nat) : RouteTable → RouteTable
  | [] => [x]
  | y :: ys => if x.1.length ≤ y.1.length then y :: insertRouteDesc x ys else x :: y :: ys

/-- `self.sorted_routes = sorted(routes.items(), key=lambda x: len(x[0]), reverse=True)`:
stable sort by prefix length descending. -/
def sorted_routes (routes : RouteTable) : RouteTable :=
  routes.foldl (fun acc x => insertRouteDesc x acc) []

/-- `key[len(prefix):]` re-rooted: keep a leading slash, or `/` when the
suffix is empty. -/
def stripRoutePre (key pre : String) : String :=
  let suffix := pyDrop key pre.length
  if suffix = "" then "/" else "/" ++ suffix

/-- `CompositeBackend._get_backend_and_key`: first prefix (in sorted order)
that the key starts with wins; otherwise the default backend with the key
unchanged. -/
def getBackendAndKey (dflt : Nat) (routes : RouteTable) (key : String) : Nat × String :=
  match (sorted_routes routes).find? (fun r => pyStartswith key r.1) with
  | some (pre, b) => (b, stripRoutePre key pre)
  | none => (dflt, key)

/-- Python `s.rstrip("/")`: remove every trailing slash. -/
def rstripSlashes (s : String) : String :=
  String.mk ((s.toList.reverse.dropWhile (fun c => c = '/')).reverse)

/-- `FileInfo` (`backends/protocol.py`); `size`/`modified_at` as stored. -/
structure FileInfo where
  path : String
  isDir : Bool
  size : Nat
  modifiedAt : String
  deriving Repr, DecidableEq

/-- `GrepMatch` (`backends/protocol.py`). -/
structure GrepMatch where
  path : String
  line : Nat
  text : String
  deriving Repr, DecidableEq

/-- Stable ascending insertion by path, modelling `list.sort(key=path)`;
paths compare as Python compares `str` (lexicographic by code point). -/
def insertByPath (x : FileInfo) : List FileInfo → List FileInfo
  | [] => [x]
  | y :: ys =>
    if strLtB x.path.toList y.path.toList then x :: y :: ys else y :: insertByPath x ys

def sortByPath (l : List FileInfo) : List FileInfo :=
  l.foldl (fun acc x => insertByPath x acc) []

/-- `CompositeBackend.ls_info`: a route matches when the path starts with the
prefix with its trailing slashes removed; otherwise the root aggregates the
default listing with one synthetic directory per route, and any other path
goes to the default backend. -/
def composite_ls_info (ls : Nat → String → List FileInfo) (dflt : Nat)
    (routes : RouteTable) (path : String) : List FileInfo :=
  match (sorted_routes routes).find? (fun r => pyStartswith path (rstripSlashes r.1)) with
  | some (routePre, b) =>
    let suffix := pyDrop path routePre.length
    let searchPath := if suffix = "" then "/" else "/" ++ suffix
    (ls b searchPath).map (fun fi => { fi with path := pyDropRight routePre 1 ++ fi.path })
  | none =>
    if path = "/" then
      sortByPath (ls dflt path ++ (sorted_routes routes).map
        (fun r => { path := r.1, isDir := true, size := 0, modifiedAt := "" }))
    else ls dflt path

/-- The error-propagating fan-out loop of `CompositeBackend.grep_raw` over
`self.routes.items()` (insertion order). -/
def compositeGrepFanout (grep : Nat → String → Option String → Option String →
      Except String (List GrepMatch))
    (routes : RouteTable) (pattern : String) (glob : Option String)
    (acc : List GrepMatch) : Except String (List GrepMatch) :=
  match routes with
  | [] => Except.ok acc
  | (routePre, b) :: rest =>
    match grep b pattern (some "/") glob with
    | Except.error e => Except.error e
    | Except.ok ms =>
      compositeGrepFanout grep rest pattern glob
        (acc ++ ms.map (fun m => { m with path := pyDropRight routePre 1 ++ m.path }))

/-- `CompositeBackend.grep_raw`: a route matches when a non-`None` path
starts with the route prefix minus trailing slashes, in which case only that
backend is searched with `path[len(route_prefix) - 1:]`; path `None` or `/`
fans out to the default backend and every route; any other path goes to the
default backend. -/
def composite_grep_raw (grep : Nat → String → Option String → Option String →
      Except String (List GrepMatch))
    (dflt : Nat) (routes : RouteTable) (pattern : String) (path : Option String)
    (glob : Option String) : Except String (List GrepMatch) :=
  match (sorted_routes routes).find? (fun r =>
      match path with
      | some p => pyStartswith p (rstripSlashes r.1)
      | none => false) with
  | some (routePre, b) =>
    let p := path.getD ""
    let searchPath := pyDrop p (routePre.length - 1)
    (match grep b pattern (some (if searchPath = "" then "/" else searchPath)) glob with
     | Except.error e => Except.error e
     | Except.ok ms =>
       Except.ok (ms.map (fun m => { m with path := pyDropRight routePre 1 ++ m.path })))
  | none =>
    if path = none ∨ path = some "/" then
      match grep dflt pattern path glob with
      | Except.error e => Except.error e
      | Except.ok ms0 => compositeGrepFanout grep routes pattern glob ms0
    else grep dflt pattern path glob

/-- `CompositeBackend.glob_info`: routed like `grep_raw` on the search path;
a non-matching path searches the default backend and every route, then sorts
by path. -/
def composite_glob_info (glob : Nat → String → String → List FileInfo) (dflt : Nat)
    (routes : RouteTable) (pattern : String) (path : String) : List FileInfo :=
  match (sorted_routes routes).find? (fun r => pyStartswith path (rstripSlashes r.1)) with
  | some (routePre, b) =>
    let searchPath := pyDrop path (routePre.length - 1)
    (glob b pattern (if searchPath = "" then "/" else searchPath)).map
      (fun fi => { fi with path := pyDropRight routePre 1 ++ fi.path })
  | none =>
    sortByPath (glob dflt pattern path ++ routes.flatMap
      (fun r => (glob r.2 pattern "/").map
        (fun fi => { fi with path := pyDropRight r.1 1 ++ fi.path })))

/-- `FileDownloadResponse` (`backends/protocol.py`); bytes as `String`. -/
structure FileDownloadResponse where
  path : String
  content : Option String
  error : Option String
  deriving Repr, DecidableEq

/-- `FileUploadResponse` (`backends/protocol.py`). -/
structure FileUploadResponse where
  path : String
  error : Option String
  deriving Repr, DecidableEq

/-- `defaultdict(list)` grouping step: append the entry to its backend key,
creating the key at the end on first appearance (dict insertion order). -/
def addToBatches {β : Type} (batches : List (Nat × List β)) (b : Nat) (entry : β) :
    List (Nat × List β) :=
  match batches with
  | [] => [(b, [entry])]
  | (b', es) :: rest =>
    if b' = b then (b', es ++ [entry]) :: rest else (b', es) :: addToBatches rest b entry

/-- Group a list of entries by backend key, preserving encounter order. -/
def buildBatches {β : Type} (key : β → Nat) (items : List β) : List (Nat × List β) :=
  items.foldl (fun acc it => addToBatches acc (key it) it) []

/-- Scatter writes `(original index, response)` into a pre-sized result
array, as `results[orig_idx] = ...` does. -/
def fillResults {R : Type} (init : List (Option R)) (writes : List (Nat × R)) :
    List (Option R) :=
  writes.foldl (fun res w => res.set w.1 (some w.2)) init

/-- `CompositeBackend.download_files`: resolve every path, group by backend,
call each backend([stripped paths]) once (the backend contract returns one
response per requested path, in order: modelled by mapping the per-item
function `dl`), then scatter responses back by original index. -/
def composite_download_files (dl : Nat → String → FileDownloadResponse) (dflt : Nat)
    (routes : RouteTable) (paths : List String) : List (Option FileDownloadResponse) :=
  let items := (List.range paths.length).map
    (fun i => (i, getBackendAndKey dflt routes (paths.getD i "")))
  let batches := buildBatches (fun it => it.2.1) items
  let writes := batches.flatMap (fun bb =>
    (bb.2.zip (bb.2.map (fun it => dl bb.1 it.2.2))).map
      (fun pr => (pr.1.1,
        ({ path := paths.getD pr.1.1 "", content := pr.2.content, error := pr.2.error } :
          FileDownloadResponse))))
  fillResults (List.replicate paths.length none) writes

/-- `CompositeBackend.upload_files`: same grouping and scattering as
`download_files`, over `(path, content)` pairs. -/
def composite_upload_files (ul : Nat → String → String → FileUploadResponse) (dflt : Nat)
    (routes : RouteTable) (files : List (String × String)) :
    List (Option FileUploadResponse) :=
  let items := (List.range files.length).map
    (fun i => (i, getBackendAndKey dflt routes (files.getD i ("", "")).1, (files.getD i ("", "")).2))
  let batches := buildBatches (fun it => it.2.1.1) items
  let writes := batches.flatMap (fun bb =>
    (bb.2.zip (bb.2.map (fun it => ul bb.1 it.2.1.2 it.2.2))).map
      (fun pr => (pr.1.1,
        ({ path := (files.getD pr.1.1 ("", "")).1, error := pr.2.error } :
          FileUploadResponse))))
  fillResults (List.replicate files.length none) writes

/-! ## Path validation (`middleware/filesystem.py`) -/

/-- The component-processing step of `posixpath.normpath`: drop empty and
`.` components, and resolve a `..` against the components collected so far
(kept at the root or after another `..`). -/
def normpathStep (initSlashes : Nat) (acc : List (List Char)) (comp : List Char) :
    List (List Char) :=
  if comp = [] ∨ comp = ['.'] then acc
  else if comp ≠ ['.', '.'] ∨ (initSlashes = 0 ∧ acc = []) ∨
      (acc ≠ [] ∧ acc.getLast? = some ['.', '.']) then acc ++ [comp]
  else if acc ≠ [] then acc.dropLast
  else acc

/-- `posixpath.normpath`, over `List Char`: split on `/`, fold the step over
the components, and re-assemble preserving one (or exactly two) leading
slashes; the empty result is `.`. -/
def pyNormpathL (p : List Char) : List Char :=
  if p = [] then ['.']
  else
    let initSlashes : Nat :=
      if ['/'].isPrefixOf p then
        if ['/', '/'].isPrefixOf p ∧ ¬ (['/', '/', '/'].isPrefixOf p) then 2 else 1
      else 0
    let newComps := (splitCh '/' p).foldl (normpathStep initSlashes) []
    let res := List.replicate initSlashes '/' ++ joinCh '/' newComps
    if res = [] then ['.'] else res

/-- No two consecutive dots anywhere (the negation of containing `..`). -/
def noConsecDots : List Char → Bool
  | [] => true
  | [_] => true
  | a :: b :: t => !(a = '.' && b = '.') && noConsecDots (b :: t)

/-- The components `normpathStep` keeps when no `..` component is present:
everything except empties and single dots. -/
def keepComps : List (List Char) → List (List Char)
  | [] => []
  | c :: t => if c = [] ∨ c = ['.'] then keepComps t else c :: keepComps t

/-- String-level `os.path.normpath` (POSIX flavour). -/
def pyNormpath (s : String) : String := String.mk (pyNormpathL s.toList)

/-- `re.match("^[a-zA-Z]:", path)` succeeds: at least two characters, the
first a letter and the second a colon. -/
def isWindowsDrive (p : List Char) : Bool :=
  match p with
  | c :: d :: _ => c.isAlpha && d = ':'
  | _ => false

/-- `middleware/filesystem._validate_path`: reject `..` anywhere, a leading
`~`, and drive-letter paths; then normalize via `normpath`, turn backslashes
into slashes, force a leading slash, and check `allowed_prefixes`. -/
def mw_validate_path (path : String)
    (allowedPrefixes : Option (List String) := none) : Except String String :=
  if containsSub path.toList ['.', '.'] || pyStartswith path "~" then
    Except.error ("Path traversal not allowed: " ++ path)
  else if isWindowsDrive path.toList then
    Except.error ("Windows absolute paths are not supported: " ++ path)
  else
    let n1 := pyNormpath path
    let n2 := String.mk (n1.toList.map (fun c => if c = '\\' then '/' else c))
    let n3 := if pyStartswith n2 "/" then n2 else "/" ++ n2
    match allowedPrefixes with
    | none => Except.ok n3
    | some prefixes =>
      if prefixes.any (fun pr => pyStartswith n3 pr) then Except.ok n3
      else Except.error ("Path must start with one of the allowed prefixes: " ++ path)

/-- `FilesystemBackend._resolve_path` in `virtual_mode`: root the key under
`/`, reject `..` and a leading `~` before resolution, then resolve against
the sandbox root and require the result to stay inside it.  Resolution is
modelled as pure path normalization (`Path.resolve` without symlinks), with
containment as a prefix check on the normalized result. -/
def fs_resolve_path_virtual (cwd key : String) : Except String String :=
  let vpath := if pyStartswith key "/" then key else "/" ++ key
  if containsSub vpath.toList ['.', '.'] || pyStartswith vpath "~" then
    Except.error "Path traversal not allowed"
  else
    let full := pyNormpath (cwd ++ "/" ++ String.mk (vpath.toList.dropWhile (fun c => c = '/')))
    if full = cwd ∨ pyStartswith full (cwd ++ "/") then Except.ok full
    else Except.error ("Path outside root directory: " ++ cwd)

/-! ## Oversized-result eviction (`middleware/filesystem.py`) -/

/-- `sanitize_tool_call_id`: replace each `.`, `/`, `\` with `_` (the Python
code does three single-character `str.replace` passes, which is the same as
this single map). -/
def sanitize_tool_call_id (tool_call_id : String) : String :=
  String.mk (tool_call_id.toList.map
    (fun c => if c = '.' ∨ c = '/' ∨ c = '\\' then '_' else c))

/-- Right-aligned padding to a given width, as `f"{x:>width}"`. -/
def padLeftWidth (w : Nat) (s : List Char) : List Char :=
  List.replicate (w - s.length) ' ' ++ s

def natChars (n : Nat) : List Char := (toString n).toList

/-- One line of `format_content_with_line_numbers`: lines at most 10000 chars
get a 6-wide line number and a tab; longer lines are split into chunks with
`num.idx` continuation markers. -/
def formatLineChunks (lineNum : Nat) (line : List Char) : List (List Char) :=
  if line.length ≤ 10000 then [padLeftWidth 6 (natChars lineNum) ++ '\t' :: line]
  else
    let numChunks := (line.length + 10000 - 1) / 10000
    (List.range numChunks).map (fun chunkIdx =>
      let chunk := (line.drop (chunkIdx * 10000)).take 10000
      if chunkIdx = 0 then padLeftWidth 6 (natChars lineNum) ++ '\t' :: chunk
      else padLeftWidth 6 (natChars lineNum ++ '.' :: natChars chunkIdx) ++ '\t' :: chunk)

/-- `format_content_with_line_numbers` on a list of lines. -/
def format_content_with_line_numbers (lines : List (List Char)) (start_line : Nat) : String :=
  String.mk (joinCh '\n' (lines.enum.flatMap
    (fun pr => formatLineChunks (pr.1 + start_line) pr.2)))

/-- Python `str.splitlines()` restricted to `\n` separators: like
`split("\n")` but without a trailing empty line. -/
def pySplitlines (s : List Char) : List (List Char) :=
  let parts := splitCh '\n' s
  if parts.getLast? = some [] then parts.dropLast else parts

/-- The `TOO_LARGE_TOOL_MSG` template with its placeholders substituted. -/
def tooLargeToolMsg (tool_call_id file_path content_sample : String) : String :=
  "Tool result too large, the result of this tool call " ++ tool_call_id ++
  " was saved in the filesystem at this path: " ++ file_path ++
  "\nYou can read the result from the filesystem by using the read_file tool, but make sure to only read part of the result at a time.\nYou can do this by specifying an offset and limit in the read_file tool call.\nFor example, to read the first 100 lines, you can use the read_file tool with offset=0 and limit=100.\n\nHere are the first 10 lines of the result:\n" ++
  content_sample ++ "\n"

/-- `FilesystemMiddleware._process_large_message`, for a tool message whose
content stringifies to `content`, against a state-backend file map: no limit
(or limit 0, falsy in Python) passes through; content of length at most
`4 * limit` passes through; otherwise the whole string is written to
`/large_tool_results/<sanitized id>` and the message is replaced by the
pointer template with a preview of the first 10 lines truncated to 1000
characters each; if the write itself fails the original message survives. -/
def process_large_message (limit : Option Nat) (tool_call_id content : String)
    (files : FileMap) (now : String) : String × Option FileMap :=
  match limit with
  | none => (content, none)
  | some L =>
    if L = 0 then (content, none)
    else if content.length ≤ 4 * L then (content, none)
    else
      let sanitized := sanitize_tool_call_id tool_call_id
      let file_path := "/large_tool_results/" ++ sanitized
      let result := stateWrite files file_path content now
      if result.error.isSome then (content, none)
      else
        let content_sample := format_content_with_line_numbers
          (((pySplitlines content.toList).take 10).map (fun l => l.take 1000)) 1
        (tooLargeToolMsg tool_call_id file_path content_sample, result.filesUpdate)

/-! ## Text search (`backends/utils.py`, `backends/filesystem.py`)

The sources delegate matching to `re`; the model below implements `re`
semantics for the fragment these claims exercise: `.` matches any character
except a newline, every other pattern character matches itself, and
`re.compile` always succeeds on such patterns. -/

def reMatchHere : List Char → List Char → Bool
  | [], _ => true
  | '.' :: p, c :: s => decide (c ≠ '\n') && reMatchHere p s
  | '.' :: _, [] => false
  | a :: p, c :: s => (a == c) && reMatchHere p s
  | _ :: _, [] => false

/-- `re.search`: the pattern matches at some position of the line. -/
def reSearch (pat s : List Char) : Bool :=
  reMatchHere pat s ||
    match s with
    | [] => false
    | _ :: t => reSearch pat t

/-- `backends/utils._validate_path`: default empty paths to `/`, reject
whitespace-only paths, force a leading and a trailing slash. -/
def utils_validate_path (path : Option String) : Except String String :=
  let path := match path with
    | none => "/"
    | some s => if s = "" then "/" else s
  if path.toList.all (fun c => c.isWhitespace) then
    Except.error "Path cannot be empty"
  else
    let n1 := if pyStartswith path "/" then path else "/" ++ path
    let n2 := if ['/'].isSuffixOf n1.toList then n1 else n1 ++ "/"
    Except.ok n2

/-- `Path(fp).name`: the last `/`-separated component. -/
def baseName (s : String) : String :=
  String.mk ((splitCh '/' s.toList).getLast?.getD [])

/-- Drop the first path component together with its trailing `/`. -/
def dropComponent : List Char → Option (List Char)
  | [] => none
  | '/' :: t => some t
  | _ :: t => dropComponent t

/-- Worker for `globMatch`, fuelled so the kernel can evaluate it (each step
shrinks `pattern.length + s.length`, so the wrapper's fuel never runs out).
Models `wcmatch.glob.globmatch` for the patterns these claims use: `*` and
`?` do not cross `/`, a `**/` component (GLOBSTAR) matches any possibly
empty chain of directory components, other characters are literal. -/
def globMatchF : Nat → List Char → List Char → Bool
  | 0, _, _ => false
  | _ + 1, [], [] => true
  | _ + 1, [], _ :: _ => false
  | fuel + 1, '*' :: '*' :: '/' :: p, s =>
    globMatchF fuel p s ||
      (match dropComponent s with
       | some s2 => globMatchF fuel ('*' :: '*' :: '/' :: p) s2
       | none => false)
  | fuel + 1, '*' :: p, s =>
    globMatchF fuel p s ||
      (match s with
       | [] => false
       | c :: s2 => decide (c ≠ '/') && globMatchF fuel ('*' :: p) s2)
  | fuel + 1, '?' :: p, s =>
    (match s with
     | [] => false
     | c :: s2 => decide (c ≠ '/') && globMatchF fuel p s2)
  | fuel + 1, a :: p, s =>
    (match s with
     | [] => false
     | c :: s2 => (a == c) && globMatchF fuel p s2)

def globMatch (pat s : List Char) : Bool :=
  globMatchF (pat.length + s.length + 1) pat s

/-- `grep_matches_from_files`: validate and normalize the base path (invalid
paths yield the empty match list), filter files by path prefix and optional
filename glob, then collect `(path, 1-indexed line, text)` for every line
the compiled pattern matches. -/
def grep_matches_from_files (files : FileMap) (pattern : String)
    (path : Option String) (glob : Option String) : Except String (List GrepMatch) :=
  match utils_validate_path path with
  | Except.error _ => Except.ok []
  | Except.ok normalized =>
    let filtered := files.filter (fun fp => pyStartswith fp.1 normalized)
    let filtered : FileMap := match glob with
      | some g => filtered.filter (fun (fp : String × FileData) =>
          globMatch g.toList (baseName fp.1).toList)
      | none => filtered
    Except.ok (filtered.flatMap (fun (fp : String × FileData) =>
      fp.2.content.enum.filterMap (fun (pr : Nat × List Char) =>
        if reSearch pattern.toList pr.2 then
          some ({ path := fp.1, line := pr.1 + 1, text := String.mk pr.2 } : GrepMatch)
        else none)))

/-- Stable descending insertion by modification time (`list.sort` with
`reverse=True`), comparing timestamp strings as Python compares `str`. -/
def insertByMtimeDesc (x : String × String) :
    List (String × String) → List (String × String)
  | [] => [x]
  | y :: ys =>
    if strLtB y.2.toList x.2.toList then x :: y :: ys else y :: insertByMtimeDesc x ys

def sortByMtimeDesc (l : List (String × String)) : List (String × String) :=
  l.foldl (fun acc x => insertByMtimeDesc x acc) []

def strJoinNl (l : List String) : String :=
  String.mk (joinCh '\n' (l.map String.toList))

/-- `backends/utils._glob_search_files`: validate the base path, filter by
prefix, match the path relative to the base (falling back to the basename
when the whole base is the file) against the glob with GLOBSTAR semantics,
and return the matches sorted by modification time descending, newline
joined, or `"No files found"`. -/
def glob_search_files (files : FileMap) (pattern : String) (path : String) : String :=
  match utils_validate_path (some path) with
  | Except.error _ => "No files found"
  | Except.ok normalized_path =>
    let filtered := files.filter (fun fp => pyStartswith fp.1 normalized_path)
    let ms := filtered.filterMap (fun (fp : String × FileData) =>
      let relative := String.mk ((pyDrop fp.1 normalized_path.length).toList.dropWhile
        (fun c => c = '/'))
      let relative := if relative = "" then baseName fp.1 else relative
      if globMatch pattern.toList relative.toList then some (fp.1, fp.2.modifiedAt) else none)
    let sortedM := sortByMtimeDesc ms
    if sortedM = [] then "No files found"
    else strJoinNl (sortedM.map (fun m => m.1))

/-- `FilesystemBackend.glob_info` in `virtual_mode` at search path `/` (the
case the claims exercise), over an abstract listing of the regular files
under the sandbox root as root-relative paths (stat data abstracted to
zero): strips leading slashes from the pattern, then matches with
`Path.rglob`, which per the pathlib contract is `glob("**/" + pattern)` —
implicit recursion into subdirectories; results become `/`-rooted virtual
paths sorted lexicographically. -/
def disk_glob_info (diskFiles : List String) (pattern : String) : List FileInfo :=
  let pat := String.mk (pattern.toList.dropWhile (fun c => c = '/'))
  sortByPath ((diskFiles.filter
      (fun rel => globMatch ('*' :: '*' :: '/' :: pat.toList) rel.toList)).map
    (fun rel => { path := "/" ++ rel, isDir := false, size := 0, modifiedAt := "" }))

/-! ## Theorems -/

theorem mk_toList (s : String) : String.mk s.toList = s := rfl

theorem splitCh_ne_nil (sep : Char) (l : List Char) : splitCh sep l ≠ [] := by
  cases l with
  | nil => simp [splitCh]
  | cons c t =>
    simp only [splitCh]
    cases h : splitCh sep t with
    | nil => simp
    | cons h' r => by_cases hc : c = sep <;> simp [hc]

/-- Splitting and re-joining on the same separator is the identity. -/
theorem joinCh_splitCh (sep : Char) (l : List Char) :
    joinCh sep (splitCh sep l) = l := by
  induction l with
  | nil => rfl
  | cons c t ih =>
    simp only [splitCh]
    cases h : splitCh sep t with
    | nil => exact absurd h (splitCh_ne_nil sep t)
    | cons h' r =>
      rw [h] at ih
      by_cases hc : c = sep
      · subst hc
        simp only [if_pos rfl, joinCh]
        cases r <;> simp_all [joinCh]
      · simp only [if_neg hc]
        cases r <;> simp_all [joinCh]

theorem getFile_setFile_self (files : FileMap) (p : String) (fd : FileData) :
    getFile (setFile files p fd) p = some fd := by
  induction files with
  | nil => simp [setFile, getFile]
  | cons kv t ih =>
    obtain ⟨k, v⟩ := kv
    by_cases hk : k = p <;> simp [setFile, getFile, hk, ih]

theorem file_data_to_string_create (c now : String) :
    file_data_to_string (create_file_data c now) = c := by
  simp [file_data_to_string, create_file_data, joinCh_splitCh, mk_toList]

theorem file_data_to_string_update (fd : FileData) (c now : String) :
    file_data_to_string (update_file_data fd c now) = c := by
  simp [file_data_to_string, update_file_data, joinCh_splitCh, mk_toList]

/-- C2: `write` is create-only on every backend: after a successful
`write(p, c1)`, a second `write(p, c2)` returns a result whose error field is
set (no exception) and leaves the stored content of `p` equal to `c1`.
Shown for the state backend (whose `files_update` the middleware merges into
shared state) and for the store backend (which mutates its store directly). -/
theorem write_create_only (files store : FileMap) (p c1 c2 t1 t2 t3 t4 : String)
    (hfs : getFile files p = none) (hst : getFile store p = none) :
    (stateWrite files p c1 t1).error = none ∧
    ((stateWrite (applyFilesUpdate files (stateWrite files p c1 t1).filesUpdate) p c2 t2).error).isSome = true ∧
    applyFilesUpdate (applyFilesUpdate files (stateWrite files p c1 t1).filesUpdate)
        (stateWrite (applyFilesUpdate files (stateWrite files p c1 t1).filesUpdate) p c2 t2).filesUpdate
      = applyFilesUpdate files (stateWrite files p c1 t1).filesUpdate ∧
    (getFile (applyFilesUpdate files (stateWrite files p c1 t1).filesUpdate) p).map file_data_to_string
      = some c1 ∧
    (storeWrite store p c1 t3).1.error = none ∧
    ((storeWrite (storeWrite store p c1 t3).2 p c2 t4).1.error).isSome = true ∧
    (storeWrite (storeWrite store p c1 t3).2 p c2 t4).2 = (storeWrite store p c1 t3).2 ∧
    (getFile (storeWrite store p c1 t3).2 p).map file_data_to_string = some c1 := by
  have ha : applyFilesUpdate files (stateWrite files p c1 t1).filesUpdate
      = setFile files p (create_file_data c1 t1) := by
    simp [stateWrite, hfs, applyFilesUpdate]
  have hW2 : stateWrite (setFile files p (create_file_data c1 t1)) p c2 t2
      = { error := some ("Cannot write to " ++ p ++
          " because it already exists. Read and then make an edit, or write to a new path.") } := by
    simp [stateWrite, getFile_setFile_self]
  have hs1 : storeWrite store p c1 t3
      = ({ path := some p, filesUpdate := none }, setFile store p (create_file_data c1 t3)) := by
    simp [storeWrite, hst]
  have hs2 : storeWrite (setFile store p (create_file_data c1 t3)) p c2 t4
      = ({ error := some ("Cannot write to " ++ p ++
          " because it already exists. Read and then make an edit, or write to a new path.") },
          setFile store p (create_file_data c1 t3)) := by
    simp [storeWrite, getFile_setFile_self]
  refine ⟨by simp [stateWrite, hfs], ?_, ?_, ?_, by rw [hs1], ?_, ?_, ?_⟩
  · rw [ha, hW2]; rfl
  · rw [ha, hW2]; rfl
  · rw [ha, getFile_setFile_self]; simp [file_data_to_string_create]
  · rw [hs1]; simp only; rw [hs2]; rfl
  · rw [hs1]; simp only; rw [hs2]
  · rw [hs1]; simp only; rw [getFile_setFile_self]; simp [file_data_to_string_create]

/-- C2 witness: concrete instance on empty backends. -/
theorem write_create_only_witness :
    (stateWrite [] "/a.txt" "hello" "t1").error = none ∧
    ((stateWrite (applyFilesUpdate [] (stateWrite [] "/a.txt" "hello" "t1").filesUpdate) "/a.txt" "bye" "t2").error).isSome = true ∧
    applyFilesUpdate (applyFilesUpdate [] (stateWrite [] "/a.txt" "hello" "t1").filesUpdate)
        (stateWrite (applyFilesUpdate [] (stateWrite [] "/a.txt" "hello" "t1").filesUpdate) "/a.txt" "bye" "t2").filesUpdate
      = applyFilesUpdate [] (stateWrite [] "/a.txt" "hello" "t1").filesUpdate ∧
    (getFile (applyFilesUpdate [] (stateWrite [] "/a.txt" "hello" "t1").filesUpdate) "/a.txt").map file_data_to_string
      = some "hello" ∧
    (storeWrite [] "/a.txt" "hello" "t3").1.error = none ∧
    ((storeWrite (storeWrite [] "/a.txt" "hello" "t3").2 "/a.txt" "bye" "t4").1.error).isSome = true ∧
    (storeWrite (storeWrite [] "/a.txt" "hello" "t3").2 "/a.txt" "bye" "t4").2 = (storeWrite [] "/a.txt" "hello" "t3").2 ∧
    (getFile (storeWrite [] "/a.txt" "hello" "t3").2 "/a.txt").map file_data_to_string = some "hello" :=
  write_create_only [] [] "/a.txt" "hello" "bye" "t1" "t2" "t3" "t4" rfl rfl

/-- C3: `edit` semantics on an existing file with content `s`
(`s = file_data_to_string fd`): error and content unchanged when `old` occurs
zero times, or more than once without `replace_all`; success with the single
occurrence replaced and `occurrences = 1` when it occurs exactly once; with
`replace_all = true` every occurrence is replaced and the result carries the
occurrence count.  `edit` on an absent path errors. -/
theorem edit_spec (files : FileMap) (p old_string new_string : String)
    (replace_all : Bool) (now : String) :
    (getFile files p = none →
       (stateEdit files p old_string new_string replace_all now).error.isSome = true) ∧
    (∀ fd, getFile files p = some fd →
      (strCount (file_data_to_string fd) old_string = 0 →
         (stateEdit files p old_string new_string replace_all now).error.isSome = true ∧
         applyFilesUpdate files (stateEdit files p old_string new_string replace_all now).filesUpdate
           = files) ∧
      (strCount (file_data_to_string fd) old_string > 1 → replace_all = false →
         (stateEdit files p old_string new_string replace_all now).error.isSome = true ∧
         applyFilesUpdate files (stateEdit files p old_string new_string replace_all now).filesUpdate
           = files) ∧
      (strCount (file_data_to_string fd) old_string = 1 →
         (stateEdit files p old_string new_string replace_all now).error = none ∧
         (stateEdit files p old_string new_string replace_all now).occurrences = some 1 ∧
         (getFile (applyFilesUpdate files
             (stateEdit files p old_string new_string replace_all now).filesUpdate) p).map
               file_data_to_string
           = some (strReplace (file_data_to_string fd) old_string new_string)) ∧
      (replace_all = true → strCount (file_data_to_string fd) old_string ≥ 1 →
         (stateEdit files p old_string new_string replace_all now).error = none ∧
         (stateEdit files p old_string new_string replace_all now).occurrences
           = some (strCount (file_data_to_string fd) old_string) ∧
         (getFile (applyFilesUpdate files
             (stateEdit files p old_string new_string replace_all now).filesUpdate) p).map
               file_data_to_string
           = some (strReplace (file_data_to_string fd) old_string new_string))) := by
  constructor
  · intro hnone
    simp [stateEdit, hnone]
  · intro fd hfd
    refine ⟨?_, ?_, ?_, ?_⟩
    · intro h0
      simp [stateEdit, hfd, perform_string_replacement, h0, applyFilesUpdate]
    · intro hgt hra
      have hne : strCount (file_data_to_string fd) old_string ≠ 0 := by omega
      simp [stateEdit, hfd, perform_string_replacement, hne, hgt, hra, applyFilesUpdate]
    · intro h1
      have hok : stateEdit files p old_string new_string replace_all now =
          { path := some p,
            filesUpdate := some [(p, update_file_data fd
              (strReplace (file_data_to_string fd) old_string new_string) now)],
            occurrences := some 1 } := by
        simp [stateEdit, hfd, perform_string_replacement, h1]
      rw [hok]
      refine ⟨rfl, rfl, ?_⟩
      simp [applyFilesUpdate, getFile_setFile_self, file_data_to_string_update]
    · intro hra hge
      have hne : strCount (file_data_to_string fd) old_string ≠ 0 := by omega
      have hok : stateEdit files p old_string new_string replace_all now =
          { path := some p,
            filesUpdate := some [(p, update_file_data fd
              (strReplace (file_data_to_string fd) old_string new_string) now)],
            occurrences := some (strCount (file_data_to_string fd) old_string) } := by
        simp [stateEdit, hfd, perform_string_replacement, hne, hra]
      rw [hok]
      refine ⟨rfl, rfl, ?_⟩
      simp [applyFilesUpdate, getFile_setFile_self, file_data_to_string_update]

/-- C3 witness: a file containing `aba`: editing `a → c` without
`replace_all` errors (two occurrences); editing `b → c` succeeds with one
occurrence; editing `a → c` with `replace_all` replaces both. -/
theorem edit_spec_witness :
    (stateEdit [("/f", create_file_data "aba" "t")] "/f" "a" "c" false "u").error.isSome = true ∧
    (stateEdit [("/f", create_file_data "aba" "t")] "/f" "b" "c" false "u").occurrences = some 1 ∧
    (stateEdit [("/f", create_file_data "aba" "t")] "/f" "a" "c" true "u").occurrences = some 2 ∧
    (getFile (applyFilesUpdate [("/f", create_file_data "aba" "t")]
        (stateEdit [("/f", create_file_data "aba" "t")] "/f" "a" "c" true "u").filesUpdate) "/f").map
          file_data_to_string = some "cbc" := by
  have h2 := (edit_spec [("/f", create_file_data "aba" "t")] "/f" "a" "c" false "u").2
      (create_file_data "aba" "t") (by decide)
  have h3 := (edit_spec [("/f", create_file_data "aba" "t")] "/f" "b" "c" false "u").2
      (create_file_data "aba" "t") (by decide)
  have h4 := (edit_spec [("/f", create_file_data "aba" "t")] "/f" "a" "c" true "u").2
      (create_file_data "aba" "t") (by decide)
  refine ⟨(h2.2.1 (by decide) rfl).1, (h3.2.2.1 (by decide)).2.1, ?_, ?_⟩
  · have := (h4.2.2.2 rfl (by decide)).2.1
    rw [this]
    decide
  · have := (h4.2.2.2 rfl (by decide)).2.2
    rw [this]
    decide

theorem insertRouteDesc_perm (x : String × Nat) (l : RouteTable) :
    (insertRouteDesc x l).Perm (x :: l) := by
  induction l with
  | nil => exact List.Perm.refl _
  | cons y ys ih =>
    simp only [insertRouteDesc]
    split
    · exact (ih.cons y).trans (List.Perm.swap x y ys)
    · exact List.Perm.refl _

theorem foldl_insertRouteDesc_perm (l acc : RouteTable) :
    (l.foldl (fun a x => insertRouteDesc x a) acc).Perm (acc ++ l) := by
  induction l generalizing acc with
  | nil => simp
  | cons x l ih =>
    simp only [List.foldl_cons]
    refine (ih _).trans ?_
    refine (((insertRouteDesc_perm x acc).append_right l).trans ?_)
    exact List.perm_middle.symm

theorem sorted_routes_perm (routes : RouteTable) :
    (sorted_routes routes).Perm routes := by
  simpa using foldl_insertRouteDesc_perm routes []

theorem insertRouteDesc_pairwise (x : String × Nat) (l : RouteTable)
    (h : l.Pairwise (fun a b => b.1.length ≤ a.1.length)) :
    (insertRouteDesc x l).Pairwise (fun a b => b.1.length ≤ a.1.length) := by
  induction l with
  | nil => simp [insertRouteDesc]
  | cons y ys ih =>
    rw [List.pairwise_cons] at h
    simp only [insertRouteDesc]
    split
    · rw [List.pairwise_cons]
      refine ⟨?_, ih h.2⟩
      intro z hz
      rcases List.mem_cons.mp ((insertRouteDesc_perm x ys).mem_iff.mp hz) with hz' | hz'
      · subst hz'; omega
      · exact h.1 z hz'
    · rw [List.pairwise_cons]
      refine ⟨?_, List.pairwise_cons.mpr h⟩
      intro z hz
      rcases List.mem_cons.mp hz with hz' | hz'
      · subst hz'; omega
      · have := h.1 z hz'; omega

theorem foldl_insertRouteDesc_pairwise (l acc : RouteTable)
    (h : acc.Pairwise (fun a b => b.1.length ≤ a.1.length)) :
    (l.foldl (fun a x => insertRouteDesc x a) acc).Pairwise
      (fun a b => b.1.length ≤ a.1.length) := by
  induction l generalizing acc with
  | nil => exact h
  | cons x l ih => exact ih _ (insertRouteDesc_pairwise x acc h)

theorem sorted_routes_pairwise (routes : RouteTable) :
    (sorted_routes routes).Pairwise (fun a b => b.1.length ≤ a.1.length) := by
  exact foldl_insertRouteDesc_pairwise routes [] (by simp)

/-- C1: read/write/edit resolution scans the routes sorted by prefix length
descending (`sorted_routes` is a permutation of the table, sorted
descending), dispatches to the first backend whose prefix is a prefix of the
path, strips the prefix re-rooted with a leading `/` (empty suffix becomes
`/`), and falls back to the default backend with the path unchanged; with
routes `{"/a/": 1, "/a/b/": 2}`, path `/a/b/file` resolves to backend 2 with
stripped path `/file`. -/
theorem composite_route_resolution (dflt : Nat) (routes : RouteTable) (p : String) :
    (sorted_routes routes).Perm routes ∧
    (sorted_routes routes).Pairwise (fun a b => b.1.length ≤ a.1.length) ∧
    (∀ pre b, (sorted_routes routes).find? (fun r => pyStartswith p r.1) = some (pre, b) →
       getBackendAndKey dflt routes p
         = (b, if pyDrop p pre.length = "" then "/" else "/" ++ pyDrop p pre.length)) ∧
    ((sorted_routes routes).find? (fun r => pyStartswith p r.1) = none →
       getBackendAndKey dflt routes p = (dflt, p)) ∧
    getBackendAndKey dflt [("/a/", 1), ("/a/b/", 2)] "/a/b/file" = (2, "/file") := by
  refine ⟨sorted_routes_perm routes, sorted_routes_pairwise routes, ?_, ?_, ?_⟩
  · intro pre b hf
    simp [getBackendAndKey, hf, stripRoutePre]
  · intro hf
    simp [getBackendAndKey, hf]
  · rfl

/-- C1 witness: the longest-prefix route wins on the documented example. -/
theorem composite_route_resolution_witness :
    getBackendAndKey 0 [("/a/", 1), ("/a/b/", 2)] "/a/b/file" = (2, "/file") := by
  have h := (composite_route_resolution 0 [("/a/", 1), ("/a/b/", 2)] "/a/b/file").2.2.1
    "/a/b/" 2 (by decide)
  simpa using h

/-- C10: for a route `(r, b)` the list/search operations (`ls_info`,
`grep_raw`, `glob_info`) dispatch a path to `b` whenever the path starts with
`r` minus its trailing slash, while read/write/edit resolution
(`getBackendAndKey`) requires the full prefix `r` including the slash.  In
particular `/memoriesXYZ` under route `/memories/` is listed/searched through
the routed backend but read through the default backend. -/
theorem list_search_dispatch_differs
    (ls : Nat → String → List FileInfo)
    (grep : Nat → String → Option String → Option String → Except String (List GrepMatch))
    (glob : Nat → String → String → List FileInfo)
    (dflt b : Nat) (r p pattern : String) (g : Option String) :
    (pyStartswith p (rstripSlashes r) = true →
       composite_ls_info ls dflt [(r, b)] p
         = (ls b (if pyDrop p r.length = "" then "/" else "/" ++ pyDrop p r.length)).map
             (fun fi => { fi with path := pyDropRight r 1 ++ fi.path }) ∧
       composite_grep_raw grep dflt [(r, b)] pattern (some p) g
         = (match grep b pattern
              (some (if pyDrop p (r.length - 1) = "" then "/" else pyDrop p (r.length - 1))) g with
            | Except.error e => Except.error e
            | Except.ok ms =>
              Except.ok (ms.map (fun m => { m with path := pyDropRight r 1 ++ m.path }))) ∧
       composite_glob_info glob dflt [(r, b)] pattern p
         = (glob b pattern (if pyDrop p (r.length - 1) = "" then "/" else pyDrop p (r.length - 1))).map
             (fun fi => { fi with path := pyDropRight r 1 ++ fi.path })) ∧
    (pyStartswith p r = true → getBackendAndKey dflt [(r, b)] p = (b, stripRoutePre p r)) ∧
    (pyStartswith p r = false → getBackendAndKey dflt [(r, b)] p = (dflt, p)) ∧
    composite_ls_info ls dflt [("/memories/", b)] "/memoriesXYZ"
      = (ls b "/YZ").map (fun fi => { fi with path := "/memories" ++ fi.path }) ∧
    composite_grep_raw grep dflt [("/memories/", b)] pattern (some "/memoriesXYZ") g
      = (match grep b pattern (some "XYZ") g with
         | Except.error e => Except.error e
         | Except.ok ms =>
           Except.ok (ms.map (fun m => { m with path := "/memories" ++ m.path }))) ∧
    composite_glob_info glob dflt [("/memories/", b)] pattern "/memoriesXYZ"
      = (glob b pattern "XYZ").map (fun fi => { fi with path := "/memories" ++ fi.path }) ∧
    getBackendAndKey dflt [("/memories/", b)] "/memoriesXYZ" = (dflt, "/memoriesXYZ") := by
  have hsr : sorted_routes [(r, b)] = [(r, b)] := rfl
  refine ⟨?_, ?_, ?_, ?_, ?_, ?_, ?_⟩
  · intro hcond
    refine ⟨?_, ?_, ?_⟩
    · simp [composite_ls_info, hsr, List.find?, hcond]
    · simp [composite_grep_raw, hsr, List.find?, hcond]
    · simp [composite_glob_info, hsr, List.find?, hcond]
  · intro hcond
    simp [getBackendAndKey, hsr, List.find?, hcond]
  · intro hcond
    simp [getBackendAndKey, hsr, List.find?, hcond]
  · rfl
  · rfl
  · rfl
  · rfl

/-- C10 witness: concrete backends observing the separating example. -/
theorem list_search_dispatch_differs_witness :
    composite_ls_info (fun i sp => [⟨sp, false, i, ""⟩]) 0 [("/memories/", 1)] "/memoriesXYZ"
      = [⟨"/memories/YZ", false, 1, ""⟩] ∧
    getBackendAndKey 0 [("/memories/", 1)] "/memoriesXYZ" = (0, "/memoriesXYZ") := by
  have h := list_search_dispatch_differs (fun i sp => [⟨sp, false, i, ""⟩])
    (fun _ _ _ _ => Except.ok []) (fun _ _ _ => []) 0 1 "/memories/" "/memoriesXYZ" "x" none
  refine ⟨?_, h.2.2.2.2.2.2⟩
  have h1 := (h.1 (by decide)).1
  rw [h1]
  decide

section BatchLemmas

variable {β R : Type}

theorem addToBatches_forall {P : Nat → β → Prop} (b : Nat) (e : β) (he : P b e) :
    ∀ (batches : List (Nat × List β)),
      (∀ bb ∈ batches, ∀ it ∈ bb.2, P bb.1 it) →
      ∀ bb ∈ addToBatches batches b e, ∀ it ∈ bb.2, P bb.1 it := by
  intro batches
  induction batches with
  | nil =>
    intro _ bb hbb it hit
    simp only [addToBatches, List.mem_singleton] at hbb
    subst hbb
    simp only [List.mem_singleton] at hit
    subst hit
    exact he
  | cons hd rest ih =>
    obtain ⟨b', es⟩ := hd
    intro h bb hbb it hit
    simp only [addToBatches] at hbb
    by_cases hb : b' = b
    · rw [if_pos hb] at hbb
      rcases List.mem_cons.mp hbb with heq | hbb'
      · subst heq
        rcases List.mem_append.mp hit with hit' | hit'
        · exact h (b', es) (List.mem_cons_self _ _) it hit'
        · have hite : it = e := by simpa using hit'
          subst hite
          show P b' it
          rw [hb]
          exact he
      · exact h bb (List.mem_cons_of_mem _ hbb') it hit
    · rw [if_neg hb] at hbb
      rcases List.mem_cons.mp hbb with heq | hbb'
      · subst heq
        exact h (b', es) (List.mem_cons_self _ _) it hit
      · exact ih (fun bb2 h2 => h bb2 (List.mem_cons_of_mem _ h2)) bb hbb' it hit

theorem addToBatches_mem_mono (b : Nat) (e it : β) :
    ∀ (batches : List (Nat × List β)) (bb : Nat × List β), bb ∈ batches → it ∈ bb.2 →
      ∃ bb2 ∈ addToBatches batches b e, it ∈ bb2.2 := by
  intro batches
  induction batches with
  | nil =>
    intro bb h
    simp at h
  | cons hd rest ih =>
    obtain ⟨b', es⟩ := hd
    intro bb hbb hit
    simp only [addToBatches]
    by_cases hb : b' = b
    · rw [if_pos hb]
      rcases List.mem_cons.mp hbb with heq | hbb'
      · subst heq
        exact ⟨(b', es ++ [e]), List.mem_cons_self _ _, List.mem_append.mpr (Or.inl hit)⟩
      · exact ⟨bb, List.mem_cons_of_mem _ hbb', hit⟩
    · rw [if_neg hb]
      rcases List.mem_cons.mp hbb with heq | hbb'
      · subst heq
        exact ⟨(b', es), List.mem_cons_self _ _, hit⟩
      · obtain ⟨bb2, hbb2, hit2⟩ := ih bb hbb' hit
        exact ⟨bb2, List.mem_cons_of_mem _ hbb2, hit2⟩

theorem addToBatches_mem_self (b : Nat) (e : β) :
    ∀ (batches : List (Nat × List β)), ∃ bb ∈ addToBatches batches b e, e ∈ bb.2 := by
  intro batches
  induction batches with
  | nil => exact ⟨(b, [e]), by simp [addToBatches], by simp⟩
  | cons hd rest ih =>
    obtain ⟨b', es⟩ := hd
    simp only [addToBatches]
    by_cases hb : b' = b
    · rw [if_pos hb]
      exact ⟨(b', es ++ [e]), List.mem_cons_self _ _, by simp⟩
    · rw [if_neg hb]
      obtain ⟨bb, hbb, he2⟩ := ih
      exact ⟨bb, List.mem_cons_of_mem _ hbb, he2⟩

theorem buildBatches_forall {key : β → Nat} (items : List β) :
    ∀ bb ∈ buildBatches key items, ∀ it ∈ bb.2, it ∈ items ∧ key it = bb.1 := by
  suffices h : ∀ (l : List β) (acc : List (Nat × List β))
      (_ : ∀ bb ∈ acc, ∀ it ∈ bb.2, it ∈ items ∧ key it = bb.1)
      (_ : ∀ it ∈ l, it ∈ items),
      ∀ bb ∈ l.foldl (fun a it => addToBatches a (key it) it) acc, ∀ it ∈ bb.2,
        it ∈ items ∧ key it = bb.1 by
    exact h items [] (by simp) (fun _ hx => hx)
  intro l
  induction l with
  | nil =>
    intro acc hacc _
    simpa using hacc
  | cons x l ih =>
    intro acc hacc hl
    simp only [List.foldl_cons]
    exact ih _
      (addToBatches_forall (P := fun bkey it => it ∈ items ∧ key it = bkey) (key x) x
        ⟨hl x (List.mem_cons_self _ _), rfl⟩ acc hacc)
      (fun it hx => hl it (List.mem_cons_of_mem _ hx))

theorem buildBatches_mem {key : β → Nat} (items : List β) :
    ∀ it ∈ items, ∃ bb ∈ buildBatches key items, it ∈ bb.2 := by
  suffices h : ∀ (l : List β) (acc : List (Nat × List β)) (it : β),
      (it ∈ l ∨ ∃ bb ∈ acc, it ∈ bb.2) →
      ∃ bb ∈ l.foldl (fun a it2 => addToBatches a (key it2) it2) acc, it ∈ bb.2 by
    intro it hit
    exact h items [] it (Or.inl hit)
  intro l
  induction l with
  | nil =>
    intro acc it h
    rcases h with h | h
    · simp at h
    · simpa using h
  | cons x l ih =>
    intro acc it h
    simp only [List.foldl_cons]
    apply ih
    rcases h with hl | hacc
    · rcases List.mem_cons.mp hl with heq | hl2
      · subst heq
        exact Or.inr (addToBatches_mem_self (key it) it acc)
      · exact Or.inl hl2
    · obtain ⟨bb, hbb, hit⟩ := hacc
      exact Or.inr (addToBatches_mem_mono (key x) x it acc bb hbb hit)

theorem fillResults_length (writes : List (Nat × R)) :
    ∀ (init : List (Option R)), (fillResults init writes).length = init.length := by
  induction writes with
  | nil => intro init; rfl
  | cons w ws ih =>
    intro init
    show (fillResults (init.set w.1 (some w.2)) ws).length = init.length
    rw [ih]
    exact List.length_set ..

theorem fillResults_not_written (writes : List (Nat × R)) (i : Nat) :
    ∀ (init : List (Option R)), (∀ w ∈ writes, w.1 ≠ i) →
      (fillResults init writes)[i]? = init[i]? := by
  induction writes with
  | nil => intro init _; rfl
  | cons w ws ih =>
    intro init h
    show (fillResults (init.set w.1 (some w.2)) ws)[i]? = init[i]?
    rw [ih _ (fun w2 hw2 => h w2 (List.mem_cons_of_mem _ hw2))]
    exact List.getElem?_set_ne (h w (List.mem_cons_self _ _))

theorem fillResults_written (g : Nat → R) (i : Nat) (writes : List (Nat × R)) :
    ∀ (init : List (Option R)), (∀ w ∈ writes, w.2 = g w.1) →
      (∃ w ∈ writes, w.1 = i) → i < init.length →
      (fillResults init writes)[i]? = some (some (g i)) := by
  induction writes with
  | nil =>
    intro init _ hex
    simp at hex
  | cons w ws ih =>
    intro init hw hex hi
    show (fillResults (init.set w.1 (some w.2)) ws)[i]? = some (some (g i))
    by_cases hws : ∃ w2 ∈ ws, w2.1 = i
    · exact ih _ (fun w2 h2 => hw w2 (List.mem_cons_of_mem _ h2)) hws
        (by simpa [List.length_set] using hi)
    · have hwi : w.1 = i := by
        rcases hex with ⟨w2, hw2, heq⟩
        rcases List.mem_cons.mp hw2 with heq2 | hmem
        · rw [heq2] at heq
          exact heq
        · exact absurd ⟨w2, hmem, heq⟩ hws
      have hnw : ∀ w2 ∈ ws, w2.1 ≠ i := fun w2 h2 hne => hws ⟨w2, h2, hne⟩
      rw [fillResults_not_written ws i _ hnw]
      have hwg : w.2 = g w.1 := hw w (List.mem_cons_self _ _)
      rw [hwi] at hwg ⊢
      rw [hwg]
      exact List.getElem?_set_eq_of_lt _ hi

theorem zip_map_self {α γ : Type _} (l : List α) (f : α → γ) :
    l.zip (l.map f) = l.map (fun a => (a, f a)) := by
  induction l with
  | nil => rfl
  | cons a l ih => simp [ih]

/-- Scattering grouped per-item responses back by original index recovers the
per-index response function, whatever the grouping order was. -/
theorem batch_fill_spec (key idx : β → Nat) (items : List β)
    (f : Nat → β → R) (g : Nat → R) (n : Nat)
    (hitems : ∀ it ∈ items, idx it < n ∧ f (key it) it = g (idx it))
    (hcover : ∀ i, i < n → ∃ it ∈ items, idx it = i) :
    fillResults (List.replicate n none)
      ((buildBatches key items).flatMap (fun bb => bb.2.map (fun it => (idx it, f bb.1 it))))
      = (List.range n).map (fun i => some (g i)) := by
  have hw : ∀ w ∈ (buildBatches key items).flatMap
      (fun bb => bb.2.map (fun it => (idx it, f bb.1 it))), w.2 = g w.1 := by
    intro w hwm
    obtain ⟨bb, hbb, hwmem⟩ := List.mem_flatMap.mp hwm
    obtain ⟨it, hit, heq⟩ := List.mem_map.mp hwmem
    obtain ⟨hin, hkey⟩ := buildBatches_forall items bb hbb it hit
    obtain ⟨hlt, hfg⟩ := hitems it hin
    subst heq
    show f bb.1 it = g (idx it)
    rw [← hkey]
    exact hfg
  have hcov : ∀ i, i < n → ∃ w ∈ (buildBatches key items).flatMap
      (fun bb => bb.2.map (fun it => (idx it, f bb.1 it))), w.1 = i := by
    intro i hi
    obtain ⟨it, hin, hidx⟩ := hcover i hi
    obtain ⟨bb, hbb, hit⟩ := buildBatches_mem items it hin
    exact ⟨(idx it, f bb.1 it), List.mem_flatMap.mpr ⟨bb, hbb, List.mem_map.mpr ⟨it, hit, rfl⟩⟩, hidx⟩
  apply List.ext_getElem?
  intro i
  by_cases hi : i < n
  · rw [fillResults_written g i _ _ hw (hcov i hi) (by simpa using hi)]
    rw [List.getElem?_map, List.getElem?_range hi]
    rfl
  · rw [List.getElem?_eq_none, List.getElem?_eq_none]
    · simpa using hi
    · rw [fillResults_length]
      simpa using hi

theorem range_map_getD {α γ : Type _} (l : List α) (d : α) (F : α → γ) :
    (List.range l.length).map (fun i => F (l.getD i d)) = l.map F := by
  apply List.ext_getElem?
  intro i
  by_cases hi : i < l.length
  · rw [List.getElem?_map, List.getElem?_range hi, List.getElem?_map,
      List.getElem?_eq_getElem hi]
    simp [List.getD_eq_getElem?_getD, List.getElem?_eq_getElem hi]
  · rw [List.getElem?_eq_none, List.getElem?_eq_none]
    · simpa using hi
    · simpa using hi

/-- C4: the composite batch operations return one response per input, in
input order, each depending only on that input's resolved backend and
stripped path: grouping by backend and per-item failures never leak across
slots. -/
theorem composite_batch_order (dl : Nat → String → FileDownloadResponse)
    (ul : Nat → String → String → FileUploadResponse)
    (dflt : Nat) (routes : RouteTable) (paths : List String)
    (files : List (String × String)) :
    composite_download_files dl dflt routes paths
      = paths.map (fun p => some
          { path := p,
            content := (dl (getBackendAndKey dflt routes p).1 (getBackendAndKey dflt routes p).2).content,
            error := (dl (getBackendAndKey dflt routes p).1 (getBackendAndKey dflt routes p).2).error }) ∧
    composite_upload_files ul dflt routes files
      = files.map (fun fc => some
          { path := fc.1,
            error := (ul (getBackendAndKey dflt routes fc.1).1 (getBackendAndKey dflt routes fc.1).2 fc.2).error }) := by
  constructor
  · have hwrites : (fun (bb : Nat × List (Nat × Nat × String)) =>
        (bb.2.zip (bb.2.map (fun it => dl bb.1 it.2.2))).map
          (fun pr => (pr.1.1,
            ({ path := paths.getD pr.1.1 "", content := pr.2.content, error := pr.2.error } :
              FileDownloadResponse))))
        = (fun bb => bb.2.map (fun it => (it.1,
            ({ path := paths.getD it.1 "", content := (dl bb.1 it.2.2).content,
               error := (dl bb.1 it.2.2).error } : FileDownloadResponse)))) := by
      funext bb
      rw [zip_map_self, List.map_map]
      rfl
    show fillResults (List.replicate paths.length none) _ = _
    rw [hwrites]
    exact (batch_fill_spec (fun it => it.2.1) (fun it => it.1)
      ((List.range paths.length).map (fun i => (i, getBackendAndKey dflt routes (paths.getD i ""))))
      (fun b it =>
        ({ path := paths.getD it.1 "", content := (dl b it.2.2).content,
           error := (dl b it.2.2).error } : FileDownloadResponse))
      (fun i =>
        ({ path := paths.getD i "",
           content := (dl (getBackendAndKey dflt routes (paths.getD i "")).1
             (getBackendAndKey dflt routes (paths.getD i "")).2).content,
           error := (dl (getBackendAndKey dflt routes (paths.getD i "")).1
             (getBackendAndKey dflt routes (paths.getD i "")).2).error } : FileDownloadResponse))
      paths.length
      (by
        intro it hin
        obtain ⟨i, hi, heq⟩ := List.mem_map.mp hin
        subst heq
        exact ⟨List.mem_range.mp hi, rfl⟩)
      (by
        intro i hi
        exact ⟨(i, getBackendAndKey dflt routes (paths.getD i "")),
          List.mem_map.mpr ⟨i, List.mem_range.mpr hi, rfl⟩, rfl⟩)).trans
      (range_map_getD paths ""
        (fun p => some
          ({ path := p,
             content := (dl (getBackendAndKey dflt routes p).1 (getBackendAndKey dflt routes p).2).content,
             error := (dl (getBackendAndKey dflt routes p).1 (getBackendAndKey dflt routes p).2).error } :
            FileDownloadResponse)))
  · have hwrites : (fun (bb : Nat × List (Nat × (Nat × String) × String)) =>
        (bb.2.zip (bb.2.map (fun it => ul bb.1 it.2.1.2 it.2.2))).map
          (fun pr => (pr.1.1,
            ({ path := (files.getD pr.1.1 ("", "")).1, error := pr.2.error } :
              FileUploadResponse))))
        = (fun bb => bb.2.map (fun it => (it.1,
            ({ path := (files.getD it.1 ("", "")).1, error := (ul bb.1 it.2.1.2 it.2.2).error } :
              FileUploadResponse)))) := by
      funext bb
      rw [zip_map_self, List.map_map]
      rfl
    show fillResults (List.replicate files.length none) _ = _
    rw [hwrites]
    exact (batch_fill_spec (fun it => it.2.1.1) (fun it => it.1)
      ((List.range files.length).map
        (fun i => (i, getBackendAndKey dflt routes (files.getD i ("", "")).1, (files.getD i ("", "")).2)))
      (fun b it =>
        ({ path := (files.getD it.1 ("", "")).1,
           error := (ul b it.2.1.2 it.2.2).error } : FileUploadResponse))
      (fun i =>
        ({ path := (files.getD i ("", "")).1,
           error := (ul (getBackendAndKey dflt routes (files.getD i ("", "")).1).1
             (getBackendAndKey dflt routes (files.getD i ("", "")).1).2
             (files.getD i ("", "")).2).error } : FileUploadResponse))
      files.length
      (by
        intro it hin
        obtain ⟨i, hi, heq⟩ := List.mem_map.mp hin
        subst heq
        exact ⟨List.mem_range.mp hi, rfl⟩)
      (by
        intro i hi
        exact ⟨(i, getBackendAndKey dflt routes (files.getD i ("", "")).1, (files.getD i ("", "")).2),
          List.mem_map.mpr ⟨i, List.mem_range.mpr hi, rfl⟩, rfl⟩)).trans
      (range_map_getD files ("", "")
        (fun fc => some
          ({ path := fc.1,
             error := (ul (getBackendAndKey dflt routes fc.1).1
               (getBackendAndKey dflt routes fc.1).2 fc.2).error } : FileUploadResponse)))

end BatchLemmas

theorem containsSub_cons (c : Char) (t sub : List Char)
    (h : containsSub t sub = true) : containsSub (c :: t) sub = true := by
  rw [containsSub]
  simp [h]

/-- C5: a non-storage tool result whose stringified content has length at
most `4 * L` passes through unchanged; from length `4 * L + 1` on, the full
string is written to `/large_tool_results/<sanitized id>` in the resolved
backend and the message is replaced by the pointer template, which contains
that path. -/
theorem tool_result_eviction (L : Nat) (tool_call_id content : String)
    (files : FileMap) (now : String) (hL : 0 < L) :
    (content.length ≤ 4 * L →
      process_large_message (some L) tool_call_id content files now = (content, none)) ∧
    (4 * L + 1 ≤ content.length →
      getFile files ("/large_tool_results/" ++ sanitize_tool_call_id tool_call_id) = none →
      process_large_message (some L) tool_call_id content files now
        = (tooLargeToolMsg tool_call_id
            ("/large_tool_results/" ++ sanitize_tool_call_id tool_call_id)
            (format_content_with_line_numbers
              (((pySplitlines content.toList).take 10).map (fun l => l.take 1000)) 1),
           some [("/large_tool_results/" ++ sanitize_tool_call_id tool_call_id,
             create_file_data content now)]) ∧
      (∃ pre suf, (process_large_message (some L) tool_call_id content files now).1
         = pre ++ ("/large_tool_results/" ++ sanitize_tool_call_id tool_call_id) ++ suf)) := by
  have hL0 : ¬ L = 0 := by omega
  constructor
  · intro hle
    simp [process_large_message, hL0, hle]
  · intro hgt hnone
    have hnle : ¬ content.length ≤ 4 * L := by omega
    have hw : stateWrite files ("/large_tool_results/" ++ sanitize_tool_call_id tool_call_id)
        content now
        = { path := some ("/large_tool_results/" ++ sanitize_tool_call_id tool_call_id),
            filesUpdate := some [("/large_tool_results/" ++ sanitize_tool_call_id tool_call_id,
              create_file_data content now)] } := by
      simp [stateWrite, hnone]
    have hmain : process_large_message (some L) tool_call_id content files now
        = (tooLargeToolMsg tool_call_id
            ("/large_tool_results/" ++ sanitize_tool_call_id tool_call_id)
            (format_content_with_line_numbers
              (((pySplitlines content.toList).take 10).map (fun l => l.take 1000)) 1),
           some [("/large_tool_results/" ++ sanitize_tool_call_id tool_call_id,
             create_file_data content now)]) := by
      simp [process_large_message, hL0, hnle, hw]
    refine ⟨hmain, ?_⟩
    rw [hmain]
    refine ⟨"Tool result too large, the result of this tool call " ++ tool_call_id ++
      " was saved in the filesystem at this path: ",
      "\nYou can read the result from the filesystem by using the read_file tool, but make sure to only read part of the result at a time.\nYou can do this by specifying an offset and limit in the read_file tool call.\nFor example, to read the first 100 lines, you can use the read_file tool with offset=0 and limit=100.\n\nHere are the first 10 lines of the result:\n" ++
        format_content_with_line_numbers
          (((pySplitlines content.toList).take 10).map (fun l => l.take 1000)) 1 ++ "\n", ?_⟩
    simp only [tooLargeToolMsg, String.append_assoc]

/-- C5 witness: with limit 1, a 4-character result passes through and a
5-character result is evicted to the reserved path. -/
theorem tool_result_eviction_witness :
    process_large_message (some 1) "id" "abcd" [] "t" = ("abcd", none) ∧
    (process_large_message (some 1) "id" "abcde" [] "t").2
      = some [("/large_tool_results/id", create_file_data "abcde" "t")] := by
  have h4 := tool_result_eviction 1 "id" "abcd" [] "t" (by decide)
  have h5 := tool_result_eviction 1 "id" "abcde" [] "t" (by decide)
  refine ⟨h4.1 (by decide), ?_⟩
  rw [(h5.2 (by decide) (by decide)).1]
  rfl

/-- C9: the boundary validator rejects every path containing `..` or leading
`~` before any backend operation, normalizes `./foo//bar` to `/foo/bar`, and
the sandboxed disk resolver also rejects any path containing `..`. -/
theorem path_traversal_rejected (p cwd key : String) :
    (containsSub p.toList ['.', '.'] = true ∨ pyStartswith p "~" = true →
      mw_validate_path p = Except.error ("Path traversal not allowed: " ++ p)) ∧
    mw_validate_path "./foo//bar" = Except.ok "/foo/bar" ∧
    (containsSub key.toList ['.', '.'] = true →
      fs_resolve_path_virtual cwd key = Except.error "Path traversal not allowed") := by
  refine ⟨?_, by rfl, ?_⟩
  · intro h
    rcases h with h | h
    · have h2 : containsSub p.data ['.', '.'] = true := h
      simp [mw_validate_path, h2]
    · simp [mw_validate_path, h]
  · intro h
    have hv : containsSub (if pyStartswith key "/" then key else "/" ++ key).toList
        ['.', '.'] = true := by
      by_cases hs : pyStartswith key "/"
      · simpa [hs] using h
      · rw [if_neg hs]
        have htl : ("/" ++ key).toList = '/' :: key.toList := rfl
        rw [htl]
        exact containsSub_cons _ _ _ h
    have hv2 : containsSub (if pyStartswith key "/" then key else "/" ++ key).data
        ['.', '.'] = true := hv
    simp [fs_resolve_path_virtual, hv2]

/-- C9 witness: `../etc/passwd` is rejected by the validator and `../x` by
the sandboxed resolver. -/
theorem path_traversal_rejected_witness :
    mw_validate_path "../etc/passwd"
      = Except.error ("Path traversal not allowed: " ++ "../etc/passwd") ∧
    fs_resolve_path_virtual "/root" "../x" = Except.error "Path traversal not allowed" := by
  have h := path_traversal_rejected "../etc/passwd" "/root" "../x"
  exact ⟨h.1 (Or.inl (by decide)), h.2.2 (by decide)⟩

/-- C6 (code bug evaluated): the grep pipeline matches `a.c` against the
line `abc` — regular-expression semantics — although `a.c` is not a literal
substring of `abc`, contradicting the tool description's literal-substring
contract. -/
theorem grep_matches_regex_not_literal :
    grep_matches_from_files [("/f.txt", ⟨[['a', 'b', 'c']], "t"⟩)] "a.c" none none
      = Except.ok [{ path := "/f.txt", line := 1, text := "abc" }] ∧
    containsSub "abc".toList "a.c".toList = false := by
  exact ⟨rfl, by decide⟩

/-- C7 counterexample: on the disk backend, `glob_info("*.py", "/")` matches
`/sub/dir/file.py` through implicitly recursive `rglob`, while the in-memory
glob does not match it — so "standard non-recursive semantics on every
backend" fails. -/
theorem glob_disk_implicit_recursion :
    disk_glob_info ["sub/dir/file.py"] "*.py"
      = [{ path := "/sub/dir/file.py", isDir := false, size := 0, modifiedAt := "" }] ∧
    glob_search_files [("/sub/dir/file.py", ⟨[[]], "1"⟩)] "*.py" "/" = "No files found" := by
  decide

/-- C7 amended: the in-memory glob follows standard semantics — `*.py` from
`/` matches only the immediate directory while `**/*.py` recurses — whereas
the disk backend's `glob_info` is implicitly recursive, so `*.py` from `/`
does match files in subdirectories there. -/
theorem glob_standard_semantics_in_memory :
    glob_search_files [("/top.py", ⟨[[]], "2"⟩), ("/sub/dir/file.py", ⟨[[]], "1"⟩)]
        "*.py" "/" = "/top.py" ∧
    glob_search_files [("/top.py", ⟨[[]], "2"⟩), ("/sub/dir/file.py", ⟨[[]], "1"⟩)]
        "**/*.py" "/" = "/top.py\n/sub/dir/file.py" ∧
    disk_glob_info ["sub/dir/file.py", "top.py"] "*.py"
      = [{ path := "/sub/dir/file.py", isDir := false, size := 0, modifiedAt := "" },
         { path := "/top.py", isDir := false, size := 0, modifiedAt := "" }] := by
  decide

theorem noConsecDots_cons_ne (c : Char) (l : List Char) (hc : ¬ c = '.') :
    noConsecDots (c :: l) = noConsecDots l := by
  cases l with
  | nil => rfl
  | cons d t => simp [noConsecDots, hc]

theorem noConsecDots_tail (c : Char) (l : List Char)
    (h : noConsecDots (c :: l) = true) : noConsecDots l = true := by
  cases l with
  | nil => rfl
  | cons d t =>
    simp only [noConsecDots, Bool.and_eq_true] at h
    exact h.2

/-- The `..` substring test is exactly the failure of `noConsecDots`. -/
theorem containsSub_dotdot_eq (s : List Char) :
    containsSub s ['.', '.'] = !(noConsecDots s) := by
  induction s with
  | nil => rfl
  | cons c t ih =>
    rw [containsSub]
    cases t with
    | nil =>
      simp [noConsecDots, List.isPrefixOf, containsSub]
    | cons d t2 =>
      by_cases hc : c = '.'
      · by_cases hd : d = '.'
        · subst hc; subst hd
          simp [List.isPrefixOf, noConsecDots]
        · subst hc
          have hd2 : ¬ '.' = d := fun h2 => hd h2.symm
          simp [List.isPrefixOf, hd, hd2, noConsecDots, ih]
      · have hc2 : ¬ '.' = c := fun h2 => hc h2.symm
        simp [List.isPrefixOf, hc, hc2, noConsecDots, ih]

theorem noConsecDots_append_left (a b : List Char)
    (h : noConsecDots (a ++ b) = true) : noConsecDots a = true := by
  induction a with
  | nil => rfl
  | cons x a2 ih =>
    cases a2 with
    | nil => rfl
    | cons y a3 =>
      simp only [List.cons_append, noConsecDots, Bool.and_eq_true] at h ⊢
      exact ⟨h.1, by
        have := ih (by simpa using h.2)
        simpa using this⟩

theorem noConsecDots_append_sep (a b : List Char)
    (ha : noConsecDots a = true) (hb : noConsecDots b = true) :
    noConsecDots (a ++ '/' :: b) = true := by
  induction a with
  | nil =>
    rw [List.nil_append, noConsecDots_cons_ne '/' b (by decide)]
    exact hb
  | cons x a2 ih =>
    cases a2 with
    | nil =>
      have h1 : noConsecDots ('/' :: b) = true := by
        rw [noConsecDots_cons_ne '/' b (by decide)]
        exact hb
      simp [noConsecDots, h1]
    | cons y a3 =>
      simp only [List.cons_append, noConsecDots, Bool.and_eq_true] at ha ⊢
      exact ⟨ha.1, by simpa using ih ha.2⟩

theorem noConsecDots_replicate_slash (k : Nat) (x : List Char)
    (hx : noConsecDots x = true) :
    noConsecDots (List.replicate k '/' ++ x) = true := by
  induction k with
  | zero => simpa using hx
  | succ n ih =>
    rw [List.replicate_succ, List.cons_append, noConsecDots_cons_ne '/' _ (by decide)]
    exact ih

theorem noConsecDots_joinCh (cs : List (List Char))
    (h : ∀ c ∈ cs, noConsecDots c = true) :
    noConsecDots (joinCh '/' cs) = true := by
  induction cs with
  | nil => rfl
  | cons c cs2 ih =>
    cases cs2 with
    | nil => exact h c (List.mem_singleton.mpr rfl)
    | cons c2 cs3 =>
      rw [show joinCh '/' (c :: c2 :: cs3) = c ++ '/' :: joinCh '/' (c2 :: cs3) from rfl]
      exact noConsecDots_append_sep _ _ (h c (List.mem_cons_self _ _))
        (ih (fun d hd => h d (List.mem_cons_of_mem _ hd)))

theorem splitCh_cons_of_sep (sep : Char) (t : List Char) :
    splitCh sep (sep :: t) = [] :: splitCh sep t := by
  rw [splitCh]
  cases h : splitCh sep t with
  | nil => exact absurd h (splitCh_ne_nil _ _)
  | cons a r => simp

theorem splitCh_cons_of_ne (sep x : Char) (t h2 : List Char) (r : List (List Char))
    (hx : ¬ x = sep) (h : splitCh sep t = h2 :: r) :
    splitCh sep (x :: t) = (x :: h2) :: r := by
  rw [splitCh, h]
  simp [hx]

theorem mem_splitCh_no_sep (sep : Char) (l : List Char) :
    ∀ c ∈ splitCh sep l, sep ∉ c := by
  induction l with
  | nil =>
    intro c hc
    simp [splitCh] at hc
    subst hc
    simp
  | cons x t ih =>
    intro c hc
    cases h : splitCh sep t with
    | nil => exact absurd h (splitCh_ne_nil _ _)
    | cons h2 r =>
      by_cases hx : x = sep
      · subst hx
        rw [splitCh_cons_of_sep] at hc
        rcases List.mem_cons.mp hc with heq | hc2
        · subst heq; simp
        · exact ih c hc2
      · rw [splitCh_cons_of_ne sep x t h2 r hx h] at hc
        rcases List.mem_cons.mp hc with heq | hc2
        · subst heq
          intro hmem
          rcases List.mem_cons.mp hmem with heq2 | hmem2
          · exact hx heq2.symm
          · exact ih h2 (h ▸ List.mem_cons_self _ _) hmem2
        · exact ih c (h ▸ List.mem_cons_of_mem _ hc2)

theorem splitCh_head_concat (sep : Char) :
    ∀ (l h2 : List Char) (r : List (List Char)),
      splitCh sep l = h2 :: r → ∃ rest, l = h2 ++ rest := by
  intro l
  induction l with
  | nil =>
    intro h2 r h
    simp [splitCh] at h
    exact ⟨[], by simp [h.1.symm]⟩
  | cons x t ih =>
    intro h2 r h
    cases ht : splitCh sep t with
    | nil => exact absurd ht (splitCh_ne_nil _ _)
    | cons h3 r3 =>
      by_cases hx : x = sep
      · subst hx
        rw [splitCh_cons_of_sep] at h
        have : h2 = [] := (List.cons.injEq _ _ _ _ ▸ h).1.symm ▸ rfl
        rw [List.cons.injEq] at h
        exact ⟨x :: t, by rw [← h.1]; rfl⟩
      · rw [splitCh_cons_of_ne sep x t h3 r3 hx ht, List.cons.injEq] at h
        obtain ⟨rest, hrest⟩ := ih h3 r3 ht
        exact ⟨rest, by rw [← h.1, hrest]; rfl⟩

theorem mem_splitCh_noConsecDots (sep : Char) (l : List Char)
    (hl : noConsecDots l = true) :
    ∀ c ∈ splitCh sep l, noConsecDots c = true := by
  induction l with
  | nil =>
    intro c hc
    simp [splitCh] at hc
    subst hc
    rfl
  | cons x t ih =>
    intro c hc
    have hlt : noConsecDots t = true := noConsecDots_tail x t hl
    cases ht : splitCh sep t with
    | nil => exact absurd ht (splitCh_ne_nil _ _)
    | cons h2 r =>
      by_cases hx : x = sep
      · subst hx
        rw [splitCh_cons_of_sep] at hc
        rcases List.mem_cons.mp hc with heq | hc2
        · subst heq; rfl
        · exact ih hlt c hc2
      · rw [splitCh_cons_of_ne sep x t h2 r hx ht] at hc
        rcases List.mem_cons.mp hc with heq | hc2
        · subst heq
          obtain ⟨rest, hrest⟩ := splitCh_head_concat sep t h2 r ht
          have : noConsecDots ((x :: h2) ++ rest) = true := by
            rw [show (x :: h2) ++ rest = x :: (h2 ++ rest) from rfl, ← hrest]
            exact hl
          exact noConsecDots_append_left _ _ this
        · exact ih hlt c (ht ▸ List.mem_cons_of_mem _ hc2)

theorem mem_splitCh_chars (sep : Char) (l : List Char) :
    ∀ c ∈ splitCh sep l, ∀ x ∈ c, x ∈ l := by
  induction l with
  | nil =>
    intro c hc
    simp [splitCh] at hc
    subst hc
    simp
  | cons y t ih =>
    intro c hc x hx
    cases ht : splitCh sep t with
    | nil => exact absurd ht (splitCh_ne_nil _ _)
    | cons h2 r =>
      by_cases hy : y = sep
      · subst hy
        rw [splitCh_cons_of_sep] at hc
        rcases List.mem_cons.mp hc with heq | hc2
        · subst heq; simp at hx
        · exact List.mem_cons_of_mem _ (ih c hc2 x hx)
      · rw [splitCh_cons_of_ne sep y t h2 r hy ht] at hc
        rcases List.mem_cons.mp hc with heq | hc2
        · subst heq
          rcases List.mem_cons.mp hx with heq2 | hx2
          · subst heq2; exact List.mem_cons_self _ _
          · exact List.mem_cons_of_mem _
              (ih h2 (ht ▸ List.mem_cons_self _ _) x hx2)
        · exact List.mem_cons_of_mem _
            (ih c (ht ▸ List.mem_cons_of_mem _ hc2) x hx)

theorem mem_joinCh_chars (sep : Char) (cs : List (List Char)) :
    ∀ x ∈ joinCh sep cs, x = sep ∨ ∃ c ∈ cs, x ∈ c := by
  induction cs with
  | nil => intro x hx; simp [joinCh] at hx
  | cons c cs2 ih =>
    intro x hx
    cases cs2 with
    | nil =>
      exact Or.inr ⟨c, List.mem_singleton.mpr rfl, by simpa [joinCh] using hx⟩
    | cons c2 cs3 =>
      rw [show joinCh sep (c :: c2 :: cs3) = c ++ sep :: joinCh sep (c2 :: cs3) from rfl] at hx
      rcases List.mem_append.mp hx with hx2 | hx2
      · exact Or.inr ⟨c, List.mem_cons_self _ _, hx2⟩
      · rcases List.mem_cons.mp hx2 with heq | hx3
        · exact Or.inl heq
        · rcases ih x hx3 with h | ⟨c3, hc3, hx4⟩
          · exact Or.inl h
          · exact Or.inr ⟨c3, List.mem_cons_of_mem _ hc3, hx4⟩

theorem mem_keepComps (l : List (List Char)) :
    ∀ c ∈ keepComps l, c ∈ l ∧ ¬ (c = [] ∨ c = ['.']) := by
  induction l with
  | nil => intro c hc; simp [keepComps] at hc
  | cons d t ih =>
    intro c hc
    rw [keepComps] at hc
    by_cases hd : d = [] ∨ d = ['.']
    · rw [if_pos hd] at hc
      obtain ⟨h1, h2⟩ := ih c hc
      exact ⟨List.mem_cons_of_mem _ h1, h2⟩
    · rw [if_neg hd] at hc
      rcases List.mem_cons.mp hc with heq | hc2
      · subst heq; exact ⟨List.mem_cons_self _ _, hd⟩
      · obtain ⟨h1, h2⟩ := ih c hc2
        exact ⟨List.mem_cons_of_mem _ h1, h2⟩

theorem keepComps_all_kept (l : List (List Char))
    (h : ∀ c ∈ l, ¬ (c = [] ∨ c = ['.'])) : keepComps l = l := by
  induction l with
  | nil => rfl
  | cons d t ih =>
    rw [keepComps, if_neg (h d (List.mem_cons_self _ _))]
    rw [ih (fun c hc => h c (List.mem_cons_of_mem _ hc))]

theorem keepComps_replicate_nil (k : Nat) (l : List (List Char)) :
    keepComps (List.replicate k [] ++ l) = keepComps l := by
  induction k with
  | zero => rfl
  | succ n ih => rw [List.replicate_succ, List.cons_append, keepComps, if_pos (Or.inl rfl), ih]

/-- With no `..` component present, the normpath fold keeps exactly the
non-empty, non-`.` components, in order. -/
theorem foldl_normpathStep_eq (s : Nat) (comps : List (List Char))
    (h : ∀ c ∈ comps, c ≠ ['.', '.']) :
    ∀ acc, comps.foldl (normpathStep s) acc = acc ++ keepComps comps := by
  induction comps with
  | nil => intro acc; simp [keepComps]
  | cons c cs ih =>
    intro acc
    rw [List.foldl_cons, keepComps]
    by_cases hc : c = [] ∨ c = ['.']
    · rw [if_pos hc]
      have hstep : normpathStep s acc c = acc := by rw [normpathStep, if_pos hc]
      rw [hstep, ih (fun d hd => h d (List.mem_cons_of_mem _ hd))]
    · rw [if_neg hc]
      have hstep : normpathStep s acc c = acc ++ [c] := by
        rw [normpathStep, if_neg hc, if_pos (Or.inl (h c (List.mem_cons_self _ _)))]
      rw [hstep, ih (fun d hd => h d (List.mem_cons_of_mem _ hd)), List.append_assoc]
      rfl

theorem splitCh_no_sep (sep : Char) (l : List Char) (h : sep ∉ l) :
    splitCh sep l = [l] := by
  induction l with
  | nil => rfl
  | cons c t ih =>
    have hc : ¬ c = sep := fun heq => h (heq ▸ List.mem_cons_self _ _)
    have ht : sep ∉ t := fun hm => h (List.mem_cons_of_mem _ hm)
    rw [splitCh, ih ht]
    simp [hc]

theorem splitCh_append_sep (sep : Char) (a rest : List Char) (h : sep ∉ a) :
    splitCh sep (a ++ sep :: rest) = a :: splitCh sep rest := by
  induction a with
  | nil => simpa using splitCh_cons_of_sep sep rest
  | cons c a2 ih =>
    have hc : ¬ c = sep := fun heq => h (heq ▸ List.mem_cons_self _ _)
    have ha2 : sep ∉ a2 := fun hm => h (List.mem_cons_of_mem _ hm)
    cases hsplit : splitCh sep (a2 ++ sep :: rest) with
    | nil => exact absurd hsplit (splitCh_ne_nil _ _)
    | cons h2 r =>
      have := ih ha2
      rw [hsplit] at this
      rw [List.cons.injEq] at this
      rw [show (c :: a2) ++ sep :: rest = c :: (a2 ++ sep :: rest) from rfl,
        splitCh_cons_of_ne sep c _ h2 r hc hsplit, this.1, this.2]

theorem splitCh_joinCh (sep : Char) (cs : List (List Char)) (hne : cs ≠ [])
    (h : ∀ c ∈ cs, sep ∉ c) : splitCh sep (joinCh sep cs) = cs := by
  induction cs with
  | nil => exact absurd rfl hne
  | cons c cs2 ih =>
    cases cs2 with
    | nil =>
      rw [show joinCh sep [c] = c from rfl]
      exact splitCh_no_sep sep c (h c (List.mem_singleton.mpr rfl))
    | cons c2 cs3 =>
      rw [show joinCh sep (c :: c2 :: cs3) = c ++ sep :: joinCh sep (c2 :: cs3) from rfl,
        splitCh_append_sep sep c _ (h c (List.mem_cons_self _ _)),
        ih (by simp) (fun d hd => h d (List.mem_cons_of_mem _ hd))]

/-- C8 counterexample: the boundary normalization is not idempotent as
stated: `.` normalizes to `/.`, which re-normalizes to `/`; likewise a path
containing backslashes normalizes to `/a//b`, which re-normalizes to
`/a/b`. -/
theorem normalize_not_idempotent :
    mw_validate_path "." = Except.ok "/." ∧
    mw_validate_path "/." = Except.ok "/" ∧
    ("/." : String) ≠ "/" ∧
    mw_validate_path "a\\\\b" = Except.ok "/a//b" ∧
    mw_validate_path "/a//b" = Except.ok "/a/b" ∧
    ("/a//b" : String) ≠ "/a/b" :=
  ⟨rfl, rfl, by decide, rfl, rfl, by decide⟩

theorem splitCh_replicate_sep_append (sep : Char) (l : List Char) :
    ∀ k, splitCh sep (List.replicate k sep ++ l)
      = List.replicate k [] ++ splitCh sep l := by
  intro k
  induction k with
  | zero => rfl
  | succ n ih =>
    rw [List.replicate_succ, List.cons_append, splitCh_cons_of_sep, ih,
      List.replicate_succ, List.cons_append]

theorem joinCh_cons_concat (sep : Char) (c : List Char) (cs : List (List Char)) :
    ∃ rest, joinCh sep (c :: cs) = c ++ rest := by
  cases cs with
  | nil => exact ⟨[], by simp [joinCh]⟩
  | cons c2 cs2 => exact ⟨sep :: joinCh sep (c2 :: cs2), rfl⟩

/-- Re-normalizing an already normalized absolute path (one or two leading
slashes, then clean components) is the identity. -/
theorem pyNormpathL_fixpoint (k : Nat) (cs : List (List Char))
    (hk : k = 1 ∨ k = 2)
    (hcs : ∀ c ∈ cs, c ≠ [] ∧ c ≠ ['.'] ∧ c ≠ ['.', '.'] ∧ '/' ∉ c) :
    pyNormpathL (List.replicate k '/' ++ joinCh '/' cs)
      = List.replicate k '/' ++ joinCh '/' cs := by
  have hk1 : 1 ≤ k := by rcases hk with rfl | rfl <;> omega
  have hpne : List.replicate k '/' ++ joinCh '/' cs ≠ [] := by
    rcases hk with rfl | rfl <;> simp [List.replicate_succ]
  -- the second character is not a slash unless placed by the replicate
  have hjoin_head : ∀ x l, joinCh '/' cs = x :: l → ¬ x = '/' := by
    intro x l hx hxs
    cases cs with
    | nil => simp [joinCh] at hx
    | cons c0 cs2 =>
      obtain ⟨r2, hr2⟩ := joinCh_cons_concat '/' c0 cs2
      obtain ⟨h1, h2, h3, h4⟩ := hcs c0 (List.mem_cons_self _ _)
      cases c0 with
      | nil => exact h1 rfl
      | cons y c0t =>
        rw [hr2] at hx
        have : y = x := by
          have := congrArg (fun l => l.head?) hx
          simpa using this
        exact h4 (by rw [this, hxs]; exact List.mem_cons_self _ _)
  -- initial slashes of the reassembled path compute to k
  have hinit : (if (['/'].isPrefixOf (List.replicate k '/' ++ joinCh '/' cs)) = true then
      if (['/', '/'].isPrefixOf (List.replicate k '/' ++ joinCh '/' cs)) = true ∧
          ¬ (['/', '/', '/'].isPrefixOf (List.replicate k '/' ++ joinCh '/' cs)) = true
      then 2 else 1
    else 0) = k := by
    rcases hk with rfl | rfl
    · simp only [List.replicate_succ, List.replicate_zero, List.nil_append, List.cons_append]
      cases hj : joinCh '/' cs with
      | nil => rfl
      | cons x l =>
        have hx := hjoin_head x l hj
        have hx2 : ¬ '/' = x := fun h => hx h.symm
        simp [List.isPrefixOf, hx, hx2]
    · simp only [List.replicate_succ, List.replicate_zero, List.nil_append, List.cons_append]
      cases hj : joinCh '/' cs with
      | nil => rfl
      | cons x l =>
        have hx := hjoin_head x l hj
        have hx2 : ¬ '/' = x := fun h => hx h.symm
        simp [List.isPrefixOf, hx, hx2]
  -- the components of the reassembled path
  have hcomps : splitCh '/' (List.replicate k '/' ++ joinCh '/' cs)
      = List.replicate k [] ++ splitCh '/' (joinCh '/' cs) :=
    splitCh_replicate_sep_append '/' _ k
  have hfold : (splitCh '/' (List.replicate k '/' ++ joinCh '/' cs)).foldl
      (normpathStep k) [] = cs := by
    rw [hcomps]
    cases hcse : cs with
    | nil =>
      simp only [joinCh]
      rw [show splitCh '/' ([] : List Char) = [[]] from rfl]
      rw [foldl_normpathStep_eq k _ ?hdd []]
      · rw [keepComps_replicate_nil]
        rfl
      · intro c hc
        rcases List.mem_append.mp hc with hc2 | hc2
        · rw [List.eq_of_mem_replicate hc2]; simp
        · simp only [List.mem_singleton] at hc2
          rw [hc2]; simp
    | cons c0 cs2 =>
      rw [← hcse]
      rw [splitCh_joinCh '/' cs (by rw [hcse]; simp)
        (fun c hc => (hcs c hc).2.2.2)]
      rw [foldl_normpathStep_eq k _ ?hdd2 []]
      · rw [keepComps_replicate_nil, keepComps_all_kept]
        · rfl
        · intro c hc h
          obtain ⟨h1, h2, _, _⟩ := hcs c hc
          rcases h with h | h
          · exact h1 h
          · exact h2 h
      · intro c hc
        rcases List.mem_append.mp hc with hc2 | hc2
        · rw [List.eq_of_mem_replicate hc2]; simp
        · exact (hcs c hc2).2.2.1
  -- assemble
  rw [pyNormpathL]
  rw [if_neg hpne]
  simp only [hinit, hfold]
  rw [if_neg hpne]

theorem map_bs_noop (l : List Char) (h : ∀ x ∈ l, ¬ x = '\\') :
    l.map (fun c => if c = '\\' then '/' else c) = l := by
  induction l with
  | nil => rfl
  | cons c t ih =>
    rw [List.map_cons, if_neg (h c (List.mem_cons_self _ _)),
      ih (fun x hx => h x (List.mem_cons_of_mem _ hx))]

theorem pyStartswith_slash (s : String) (h : pyStartswith s "/" = true) :
    ∃ rest, s.toList = '/' :: rest := by
  unfold pyStartswith at h
  cases hs : s.toList with
  | nil => rw [hs] at h; simp [List.isPrefixOf] at h
  | cons c t =>
    rw [hs] at h
    simp only [show ("/" : String).toList = ['/'] from rfl, List.isPrefixOf,
      Bool.and_eq_true, beq_iff_eq] at h
    exact ⟨t, by rw [h.1]⟩

/-- Normalizing a `..`-free absolute path yields one or two leading slashes
followed by clean components, whose characters all come from the input (or
are slashes), with no consecutive dots. -/
theorem pyNormpathL_absolute (l rest : List Char) (hl : l = '/' :: rest)
    (hdd : noConsecDots l = true) :
    ∃ k cs, (k = 1 ∨ k = 2) ∧
      (∀ c ∈ cs, c ≠ [] ∧ c ≠ ['.'] ∧ c ≠ ['.', '.'] ∧ '/' ∉ c) ∧
      pyNormpathL l = List.replicate k '/' ++ joinCh '/' cs ∧
      (∀ x ∈ pyNormpathL l, x = '/' ∨ x ∈ l) ∧
      noConsecDots (pyNormpathL l) = true := by
  have hne : l ≠ [] := by rw [hl]; simp
  have hcompdd : ∀ c ∈ splitCh '/' l, c ≠ ['.', '.'] := by
    intro c hc heq
    have := mem_splitCh_noConsecDots '/' l hdd c hc
    rw [heq] at this
    simp [noConsecDots] at this
  -- the initial-slash count is 1 or 2
  have hk12 : (if (['/'].isPrefixOf l) = true then
      if (['/', '/'].isPrefixOf l) = true ∧ ¬ (['/', '/', '/'].isPrefixOf l) = true
      then 2 else 1
    else 0) = 1 ∨ (if (['/'].isPrefixOf l) = true then
      if (['/', '/'].isPrefixOf l) = true ∧ ¬ (['/', '/', '/'].isPrefixOf l) = true
      then 2 else 1
    else 0) = 0 ∨ (if (['/'].isPrefixOf l) = true then
      if (['/', '/'].isPrefixOf l) = true ∧ ¬ (['/', '/', '/'].isPrefixOf l) = true
      then 2 else 1
    else 0) = 2 := by
    by_cases h1 : (['/'].isPrefixOf l) = true
    · by_cases h2 : (['/', '/'].isPrefixOf l) = true ∧ ¬ (['/', '/', '/'].isPrefixOf l) = true
      · rw [if_pos h1, if_pos h2]; right; right; rfl
      · rw [if_pos h1, if_neg h2]; left; rfl
    · rw [if_neg h1]; right; left; rfl
  have hpre : (['/'].isPrefixOf l) = true := by
    rw [hl]; simp [List.isPrefixOf]
  set k := (if (['/'].isPrefixOf l) = true then
      if (['/', '/'].isPrefixOf l) = true ∧ ¬ (['/', '/', '/'].isPrefixOf l) = true
      then 2 else 1
    else 0) with hkdef
  have hk : k = 1 ∨ k = 2 := by
    rcases hk12 with h | h | h
    · exact Or.inl h
    · rw [hkdef, if_pos hpre] at h
      split at h <;> omega
    · exact Or.inr h
  have hk1 : 1 ≤ k := by rcases hk with h | h <;> omega
  -- the fold keeps the clean components
  have hfold : (splitCh '/' l).foldl (normpathStep k) []
      = keepComps (splitCh '/' l) := by
    rw [foldl_normpathStep_eq k _ hcompdd []]
    rfl
  have hcs : ∀ c ∈ keepComps (splitCh '/' l),
      c ≠ [] ∧ c ≠ ['.'] ∧ c ≠ ['.', '.'] ∧ '/' ∉ c := by
    intro c hc
    obtain ⟨hmem, hkeep⟩ := mem_keepComps _ c hc
    refine ⟨fun h => hkeep (Or.inl h), fun h => hkeep (Or.inr h), hcompdd c hmem,
      mem_splitCh_no_sep '/' l c hmem⟩
  have hres_ne : List.replicate k '/' ++ joinCh '/' (keepComps (splitCh '/' l)) ≠ [] := by
    rcases hk with h | h <;> rw [h] <;> simp [List.replicate_succ]
  have hnorm : pyNormpathL l
      = List.replicate k '/' ++ joinCh '/' (keepComps (splitCh '/' l)) := by
    rw [pyNormpathL, if_neg hne]
    simp only [← hkdef, hfold]
    rw [if_neg hres_ne]
  refine ⟨k, keepComps (splitCh '/' l), hk, hcs, hnorm, ?_, ?_⟩
  · intro x hx
    rw [hnorm] at hx
    rcases List.mem_append.mp hx with hx2 | hx2
    · exact Or.inl (List.eq_of_mem_replicate hx2)
    · rcases mem_joinCh_chars '/' _ x hx2 with h | ⟨c, hc, hxc⟩
      · exact Or.inl h
      · exact Or.inr (mem_splitCh_chars '/' l c (mem_keepComps _ c hc).1 x hxc)
  · rw [hnorm]
    refine noConsecDots_replicate_slash k _ (noConsecDots_joinCh _ ?_)
    intro c hc
    exact mem_splitCh_noConsecDots '/' l hdd c (mem_keepComps _ c hc).1

theorem isWindowsDrive_slash (l : List Char) : isWindowsDrive ('/' :: l) = false := by
  cases l with
  | nil => rfl
  | cons a t =>
    show (Char.isAlpha '/' && (a = ':')) = false
    rfl

/-- C8 amended: the boundary normalization is idempotent on accepted paths
that are already absolute (start with `/`) and contain no backslash:
re-validating the validator's output returns it unchanged.  (Relative inputs
such as `.` and backslash inputs are the exceptions witnessed by the
counterexample.) -/
theorem normalize_idempotent_on_absolute (p q : String)
    (habs : pyStartswith p "/" = true)
    (hbs : '\\' ∉ p.toList)
    (hq : mw_validate_path p = Except.ok q) :
    mw_validate_path q = Except.ok q := by
  obtain ⟨rest, hrest⟩ := pyStartswith_slash p habs
  have hdd : containsSub p.toList ['.', '.'] = false := by
    by_contra h
    have h2 : containsSub p.data ['.', '.'] = true := by
      cases hcb : containsSub p.toList ['.', '.'] with
      | false => exact absurd hcb h
      | true => exact hcb
    simp [mw_validate_path, h2] at hq
  have htilde : pyStartswith p "~" = false := by
    unfold pyStartswith
    rw [show ("~" : String).toList = ['~'] from rfl, hrest]
    simp [List.isPrefixOf]
  have hdrive : isWindowsDrive p.toList = false := by
    rw [hrest]
    exact isWindowsDrive_slash rest
  have hnd : noConsecDots p.toList = true := by
    have h := containsSub_dotdot_eq p.toList
    rw [hdd] at h
    cases hcb : noConsecDots p.toList with
    | false => rw [hcb] at h; simp at h
    | true => rfl
  obtain ⟨k, cs, hk, hcs, hnorm, hchars, hndq⟩ :=
    pyNormpathL_absolute p.toList rest hrest hnd
  have hnobs : ∀ x ∈ pyNormpathL p.toList, ¬ x = '\\' := by
    intro x hx heq
    rcases hchars x hx with h | h
    · rw [heq] at h; exact absurd h (by decide)
    · rw [heq] at h; exact hbs h
  have hmap : (pyNormpathL p.toList).map (fun c => if c = '\\' then '/' else c)
      = pyNormpathL p.toList := map_bs_noop _ hnobs
  have hstart : ∃ r2, pyNormpathL p.toList = '/' :: r2 := by
    rcases hk with h | h <;> rw [hnorm, h] <;> exact ⟨_, rfl⟩
  obtain ⟨r2, hr2⟩ := hstart
  -- extract q
  have hdd2 : containsSub p.data ['.', '.'] = false := hdd
  have htilde2 : pyStartswith p "~" = false := htilde
  have hdrive2 : isWindowsDrive p.data = false := hdrive
  have e3 : ((pyNormpath p).toList.map (fun c => if c = '\\' then '/' else c))
      = pyNormpathL p.toList := by
    rw [show (pyNormpath p).toList = pyNormpathL p.toList from rfl, hmap]
  have e4 : pyStartswith (String.mk (pyNormpathL p.toList)) "/" = true := by
    unfold pyStartswith
    rw [show (String.mk (pyNormpathL p.toList)).toList = pyNormpathL p.toList from rfl, hr2]
    simp [List.isPrefixOf]
  have hq_eq : q = String.mk (pyNormpathL p.toList) := by
    simp only [mw_validate_path] at hq
    rw [if_neg (by simp [hdd2, htilde2]), if_neg (by simp [hdrive2])] at hq
    rw [e3] at hq
    rw [if_pos e4] at hq
    exact (Except.ok.injEq _ _ ▸ hq).symm
  have hqlist : q.toList = pyNormpathL p.toList := by
    rw [hq_eq]
    rfl
  have hqdd : containsSub q.data ['.', '.'] = false := by
    have h2 : containsSub q.toList ['.', '.'] = false := by
      rw [hqlist, containsSub_dotdot_eq, hndq]
      rfl
    exact h2
  have hqtilde : pyStartswith q "~" = false := by
    unfold pyStartswith
    rw [show ("~" : String).toList = ['~'] from rfl, hqlist, hr2]
    simp [List.isPrefixOf]
  have hqdrive : isWindowsDrive q.data = false := by
    have h2 : isWindowsDrive q.toList = false := by
      rw [hqlist, hr2]
      exact isWindowsDrive_slash r2
    exact h2
  have hqnormfix : pyNormpathL q.toList = q.toList := by
    rw [hqlist, hnorm]
    exact pyNormpathL_fixpoint k cs hk hcs
  have hqmap : (pyNormpathL q.toList).map (fun c => if c = '\\' then '/' else c)
      = pyNormpathL q.toList := by
    rw [hqnormfix, hqlist]
    exact hmap
  have e5 : ((pyNormpath q).toList.map (fun c => if c = '\\' then '/' else c))
      = pyNormpathL q.toList := by
    rw [show (pyNormpath q).toList = pyNormpathL q.toList from rfl, hqmap]
  have e6 : pyStartswith (String.mk (pyNormpathL q.toList)) "/" = true := by
    unfold pyStartswith
    rw [show (String.mk (pyNormpathL q.toList)).toList = pyNormpathL q.toList from rfl,
      hqnormfix, hqlist, hr2]
    simp [List.isPrefixOf]
  simp only [mw_validate_path]
  rw [if_neg (by simp [hqdd, hqtilde]), if_neg (by simp [hqdrive])]
  rw [e5]
  rw [if_pos e6]
  rw [hqnormfix]
  rfl

/-- C8 witness: an absolute, backslash-free accepted path where the second
normalization pass returns the first pass's output unchanged. -/
theorem normalize_idempotent_on_absolute_witness :
    mw_validate_path "/a/./b//c" = Except.ok "/a/b/c" ∧
    mw_validate_path "/a/b/c" = Except.ok "/a/b/c" := by
  have h1 : mw_validate_path "/a/./b//c" = Except.ok "/a/b/c" := rfl
  exact ⟨h1, normalize_idempotent_on_absolute "/a/./b//c" "/a/b/c" (by decide) (by decide) h1⟩

end DeepAgents
